import Mathlib

/-!
A shallow embedding of the changelog document model, parser, formatter and
merger of the changelog-gen-ai repository (src/changelog/writer, parser and
formatter modules), together with proofs checking the natural-language
specification against it.

Conventions of the embedding:
* JavaScript strings are modelled as `List Char`; a "line" is a `List Char`
  that normally contains no newline (lines are produced by splitting on
  the newline character, mirroring `content.split('\n')`).
* JavaScript `Date` values are modelled by their UTC calendar day
  (year, month, day) — the only part of a `Date` this code observes
  (`formatDate` renders the ISO day, the parser stores `new Date(iso)`)
  and only within the range where `toISOString` emits a 4-digit year.
* Each regular expression of the source is hand-compiled to a matcher
  function that reproduces the JS backtracking semantics (leftmost match,
  greedy quantifiers, first-alternative preference); the derivation is
  documented at each matcher.
* File-system effects (`existsSync`/`readFileSync`/`writeFileSync`) are
  modelled by passing the optional existing file content in and returning
  the content that would be persisted.
-/

namespace ChangelogGen

/-- A JavaScript string/line, modelled as its list of characters. -/
abbrev Line := List Char

/-- Code points of the character class `\s` of JavaScript regular
expressions (also the set trimmed by `String.prototype.trim`):
tab, LF, VT, FF, CR, space, NBSP, and the Unicode space separators. -/
def wsCodes : List Nat :=
  [9, 10, 11, 12, 13, 32, 160, 5760, 8192, 8193, 8194, 8195, 8196, 8197,
   8198, 8199, 8200, 8201, 8202, 8232, 8233, 8239, 8287, 12288, 65279]

/-- `jsWS c` holds when `c` matches the JS regex class `\s`. -/
def jsWS (c : Char) : Bool := wsCodes.contains c.toNat

/-- Code points excluded by the JS regex `.` (dot): LF, CR, LS, PS. -/
def dotOK (c : Char) : Bool := !([10, 13, 8232, 8233].contains c.toNat)

/-- JS `String.prototype.trim`: strip `jsWS` characters from both ends. -/
def trim (l : Line) : Line :=
  ((l.dropWhile jsWS).reverse.dropWhile jsWS).reverse

/-- ASCII lower-casing of one character (all characters this code
compares case-insensitively are ASCII). -/
def lowerC (c : Char) : Char := c.toLower

/-- JS `String.prototype.toLowerCase` on the characters we care about. -/
def lowerL (l : Line) : Line := l.map lowerC

/-- `content.split('\n')`: always returns at least one (possibly empty)
piece; pieces contain no newline. -/
def splitNL : List Char → List Line
  | [] => [[]]
  | c :: rest =>
    if c = '\n' then [] :: splitNL rest
    else
      match splitNL rest with
      | [] => [[c]]
      | l :: ls => (c :: l) :: ls

/-- `lines.join('\n')`. -/
def joinNL : List Line → List Char
  | [] => []
  | [l] => l
  | l :: ls => l ++ '\n' :: joinNL ls

/-- Decimal digit to character. -/
def digitChar : Nat → Char
  | 0 => '0' | 1 => '1' | 2 => '2' | 3 => '3' | 4 => '4'
  | 5 => '5' | 6 => '6' | 7 => '7' | 8 => '8' | 9 => '9'
  | _ => '?'

/-- Numeric value of a decimal digit character. -/
def charVal (c : Char) : Nat := c.toNat - 48

/-- Decimal value of a digit string (most significant first). -/
def toNum (l : Line) : Nat := l.foldl (fun a c => 10 * a + charVal c) 0

/-- Little-endian decimal digit characters of `n`, with explicit fuel
(first argument) so the definition is structurally recursive; `n` itself
is always enough fuel. -/
def natCharsAux : Nat → Nat → List Char
  | 0, _ => []
  | _ + 1, 0 => []
  | fuel + 1, n + 1 =>
    digitChar ((n + 1) % 10) :: natCharsAux fuel ((n + 1) / 10)

/-- Decimal rendering of a natural number (empty for 0; used only under
zero-padding, matching the fixed-width fields of `toISOString`). -/
def natChars (n : Nat) : Line := (natCharsAux n n).reverse

/-- Zero-pad a decimal rendering to width `w` (the fixed-width fields of
`Date.prototype.toISOString`). -/
def padNat (w n : Nat) : Line :=
  List.replicate (w - (natChars n).length) '0' ++ natChars n

/-- A JS `Date`, modelled as its UTC calendar day. -/
structure JSDate where
  year : Nat
  month : Nat
  day : Nat
deriving DecidableEq, Repr

/-- The `ChangelogCategory` union type (`types.ts`): the six fixed
Keep-a-Changelog categories. -/
inductive ChangelogCategory where
  | added | changed | deprecated | removed | fixed | security
deriving DecidableEq, Repr

open ChangelogCategory

/-- The string literal naming each category. -/
def catName : ChangelogCategory → Line
  | added => ("Added").data
  | changed => ("Changed").data
  | deprecated => ("Deprecated").data
  | removed => ("Removed").data
  | fixed => ("Fixed").data
  | security => ("Security").data

instance : Fintype ChangelogCategory where
  elems := ⟨[added, changed, deprecated, removed, fixed, security], by decide⟩
  complete := by intro c; cases c <;> decide

/-- `VALID_CATEGORIES` of the parser module. -/
def VALID_CATEGORIES : List ChangelogCategory :=
  [added, changed, deprecated, removed, fixed, security]

/-- `CATEGORY_ORDER` of the formatter module (same list). -/
def CATEGORY_ORDER : List ChangelogCategory :=
  [added, changed, deprecated, removed, fixed, security]

/-- `ChangelogEntry` (`types.ts`). -/
structure ChangelogEntry where
  category : ChangelogCategory
  description : Line
  commits : List Line
deriving DecidableEq, Repr

/-- `ChangelogVersion` (`types.ts`). -/
structure ChangelogVersion where
  version : Line
  date : Option JSDate
  entries : List ChangelogEntry
deriving DecidableEq, Repr

/-- Append entries at the end of a version's entry list (the effect of
`currentVersion.entries.push`). -/
def addEntries (v : ChangelogVersion) (es : List ChangelogEntry) :
    ChangelogVersion :=
  { v with entries := v.entries ++ es }

/-- `ParsedChangelog` (`types.ts`). -/
structure ParsedChangelog where
  title : Line
  description : Line
  versions : List ChangelogVersion
deriving DecidableEq, Repr

/-- `AICategorizedChanges` (`types.ts`): a total map from category to the
ordered list of description strings. -/
structure AICategorizedChanges where
  categories : ChangelogCategory → List Line

/-- `line.startsWith('## ')`. -/
def startsHH (l : Line) : Bool :=
  match l with
  | a :: b :: c :: _ => a == '#' && b == '#' && c == ' '
  | _ => false

/-- `line.startsWith('# ')`. -/
def startsH1 (l : Line) : Bool :=
  match l with
  | a :: b :: _ => a == '#' && b == ' '
  | _ => false

/-- The pattern word of the Unreleased-header regex, lower-cased. -/
def unrelWord : Line := ("unreleased").data

/-- Matcher for `/^##\s+\[?Unreleased\]?/i` (an unanchored-at-the-end
prefix test, so the trailing `\]?` and anything after the word are
irrelevant).  Backtracking note: a shorter `\s+` would leave a whitespace
character where `\[` or `U`/`u` is required, and skipping a present `[`
would leave `[` where `U`/`u` is required, so the greedy first attempt is
the only candidate. -/
def isUnrelHeader (l : Line) : Bool :=
  match l with
  | a :: b :: t =>
    a == '#' && b == '#' &&
      (let w := t.takeWhile jsWS
       let r := t.dropWhile jsWS
       let r' := match r with
         | '[' :: rr => rr
         | _ => r
       !w.isEmpty && lowerL (r'.take 10) == unrelWord)
  | _ => false

/-- Matcher for the loose version-header test `/^##\s+\[?[^\]]+\]?/` used
by the merger's scan loops.  Derivation: after `##` the regex needs a
non-empty whitespace run and then at least one non-`]` character, with an
optional `[` in between.  If the maximal whitespace run has length ≥ 2,
its last character can itself serve as the non-`]` character; otherwise
the first character after the run must not be `]` (a `[` there matches
either as the optional `[` followed by more, or as the non-`]` character
itself). -/
def looseVer (l : Line) : Bool :=
  match l with
  | a :: b :: t =>
    a == '#' && b == '#' &&
      (let w := t.takeWhile jsWS
       let r := t.dropWhile jsWS
       !w.isEmpty &&
         (2 ≤ w.length || (match r with | c :: _ => c != ']' | [] => false)))
  | _ => false

/-- Backtracking helper for the suffix `\s+(.+)$` of the category and
entry regexes: try whitespace-run lengths `k, k-1, …, 1` (greedy first);
for each, the capture is the remainder, which must be non-empty and all
dot-matchable (`.` excludes line terminators) to reach `$`. -/
def capTry (t : List Char) : Nat → Option Line
  | 0 => none
  | k + 1 =>
    let c := t.drop (k + 1)
    if !c.isEmpty && c.all dotOK then some c else capTry t k

/-- Match `\s+(.+)$` against `t`, returning the capture. -/
def tailCapture (t : List Char) : Option Line :=
  capTry t (t.takeWhile jsWS).length

/-- `CATEGORY_HEADER_REGEX = /^###\s+(.+)$/`. -/
def matchCat (l : Line) : Option Line :=
  match l with
  | a :: b :: c :: t =>
    if a == '#' && b == '#' && c == '#' then tailCapture t else none
  | _ => none

/-- `ENTRY_REGEX = /^[-*]\s+(.+)$/`. -/
def matchEntry (l : Line) : Option Line :=
  match l with
  | c :: t => if c == '-' || c == '*' then tailCapture t else none
  | _ => none

/-- The optional date group `(\d{4}-\d{2}-\d{2})?` of the version-header
regex, tried at the position after the separator; it matches the ten
characters when they have the digit/dash shape and otherwise matches
empty (it never fails, so no backtracking propagates past it). -/
def matchDate : List Char → Option Line
  | a :: b :: c :: d :: e :: f :: g :: h :: i :: j :: _ =>
    if a.isDigit && b.isDigit && c.isDigit && d.isDigit && e == '-' &&
       f.isDigit && g.isDigit && h == '-' && i.isDigit && j.isDigit
    then some [a, b, c, d, e, f, g, h, i, j] else none
  | _ => none

/-- The separator group `(?:\s*-\s*|\s+)` of the version-header regex.
First alternative: since every whitespace character differs from `-`,
`\s*` can only stop at the end of the maximal run, so the alternative
succeeds exactly when a `-` follows the maximal whitespace run (the
second `\s*` is then greedy-maximal, as nothing after it can fail).
Second alternative: a non-empty whitespace run, greedy-maximal for the
same reason.  Returns the rest of the input on success. -/
def tryF (r : List Char) : Option (List Char) :=
  (match r.dropWhile jsWS with
   | '-' :: rr => some (rr.dropWhile jsWS)
   | _ => none) <|>
  (if (r.takeWhile jsWS).isEmpty then none else some (r.dropWhile jsWS))

/-- The label group `([^\]]+)` of the version-header regex: try capture
lengths `k, k-1, …, 1` (greedy first).  After the capture, `\]?` takes a
present `]` (skipping it cannot help: the separator group always fails on
an input starting with `]`), then the separator group must match; the
first length for which it does wins, and the date group is then decided
deterministically. -/
def tryD (r2 : List Char) : Nat → Option (Line × Option Line)
  | 0 => none
  | k + 1 =>
    let cap := r2.take (k + 1)
    let r3 := r2.drop (k + 1)
    let r4 := match r3 with
      | ']' :: rr => rr
      | _ => r3
    match tryF r4 with
    | some r5 => some (cap, matchDate r5)
    | none => tryD r2 k

/-- The `\[?` group: prefer consuming a present `[`; on failure of the
rest, retry without consuming it (the `[` is then available to the label
group, being a non-`]` character). -/
def tryC (r1 : List Char) : Option (Line × Option Line) :=
  match r1 with
  | '[' :: r2 =>
    tryD r2 (r2.takeWhile (fun c => c != ']')).length <|>
      tryD r1 (r1.takeWhile (fun c => c != ']')).length
  | _ => tryD r1 (r1.takeWhile (fun c => c != ']')).length

/-- The `\s+` group after `##`: try run lengths `k, k-1, …, 1`
(greedy first). -/
def tryB (t : List Char) : Nat → Option (Line × Option Line)
  | 0 => none
  | k + 1 => tryC (t.drop (k + 1)) <|> tryB t k

/-- Matcher for
`VERSION_HEADER_REGEX = /^##\s+\[?([^\]]+)\]?(?:\s*-\s*|\s+)(\d{4}-\d{2}-\d{2})?/`,
returning the two captures (label, optional date string) of the leftmost
match, or `none` when the line does not match. -/
def versionHeaderMatch (l : Line) : Option (Line × Option Line) :=
  match l with
  | a :: b :: t =>
    if a == '#' && b == '#' then tryB t (t.takeWhile jsWS).length else none
  | _ => none

/-- `new Date("YYYY-MM-DD")` applied to a captured date string, modelled
as its UTC calendar day. -/
def jsDateOf (l : Line) : JSDate :=
  ⟨toNum (l.take 4), toNum ((l.drop 5).take 2), toNum (l.drop 8)⟩

/-- The mutable locals of `parseChangelog`'s scan loop. -/
structure PState where
  title : Line
  description : Line
  versions : List ChangelogVersion
  currentVersion : Option ChangelogVersion
  currentCategory : Option ChangelogCategory
  inPreamble : Bool
  preambleLines : List Line
deriving Repr

/-- The body of `parseChangelog`'s loop for line `i`.  Branch order as in
the source: main title (`'# '` and `i < 5`), version header, category
header (consumed only when a current version exists; an unmatched
category name leaves the state unchanged), entry (needs current version
and category), preamble collection. -/
def parseStep (i : Nat) (line : Line) (s : PState) : PState :=
  if startsH1 line ∧ i < 5 then
    { s with title := trim (line.drop 2), inPreamble := true }
  else
    match versionHeaderMatch line with
    | some (cap1, cap2) =>
      { s with
        versions := (match s.currentVersion with
          | some v => s.versions ++ [v]
          | none => s.versions),
        description := if s.inPreamble then trim (joinNL s.preambleLines)
                       else s.description,
        inPreamble := false,
        currentVersion := some ⟨trim cap1, cap2.map jsDateOf, []⟩,
        currentCategory := none }
    | none =>
      match matchCat line, s.currentVersion with
      | some cap, some _ =>
        (match VALID_CATEGORIES.find?
            (fun c => lowerL (catName c) == lowerL (trim cap)) with
         | some c => { s with currentCategory := some c }
         | none => s)
      | _, _ =>
        match matchEntry line, s.currentVersion, s.currentCategory with
        | some cap, some v, some c =>
          let v' : ChangelogVersion :=
            { v with entries := v.entries ++ [⟨c, trim cap, []⟩] }
          { s with currentVersion := some v' }
        | _, _, _ =>
          if s.inPreamble ∧ trim line ≠ [] then
            { s with preambleLines := s.preambleLines ++ [line] }
          else s

/-- Run the scan loop from line index `i`. -/
def runP (i : Nat) (lines : List Line) (s : PState) : PState :=
  match lines with
  | [] => s
  | l :: rest => runP (i + 1) rest (parseStep i l s)

/-- Initial loop state of `parseChangelog`. -/
def initPState : PState :=
  ⟨("Changelog").data, [], [], none, none, true, []⟩

/-- The tail of `parseChangelog`: push the still-open version (if any)
and assemble the result from the final loop state. -/
def mkResult (s : PState) : ParsedChangelog :=
  { title := s.title,
    description := s.description,
    versions := (match s.currentVersion with
      | some v => s.versions ++ [v]
      | none => s.versions) }

/-- `parseChangelog(content)` (parser module): split on newlines, scan,
and push the still-open version at the end. -/
def parseChangelog (content : List Char) : ParsedChangelog :=
  mkResult (runP 0 (splitNL content) initPState)

/-- `formatDate(date)`: the ISO calendar-day part of `toISOString`. -/
def formatDate (d : JSDate) : Line :=
  padNat 4 d.year ++ '-' :: padNat 2 d.month ++ '-' :: padNat 2 d.day

/-- `array.join(sep)` for non-newline separators. -/
def joinWith (sep : Line) : List Line → Line
  | [] => []
  | [l] => l
  | l :: ls => l ++ sep ++ joinWith sep ls

/-- `formatEntry(entry, repoUrl?)` (formatter module). -/
def formatEntry (e : ChangelogEntry) (repoUrl : Option Line) : Line :=
  let line := '-' :: ' ' :: e.description
  match repoUrl with
  | some url =>
    if e.commits.length > 0 then
      let links := e.commits.map (fun h =>
        '[' :: h.take 7 ++ (("](").data) ++ url ++ (("/commit/").data) ++ h ++ [')'])
      line ++ (" (").data ++ joinWith ((", ").data) links ++ [')']
    else line
  | none => line

/-- The elements one category contributes to the `sections` array of
`formatAIEntries`: nothing when its list is empty, otherwise a
`### <Category>\n` element, one element per formatted entry, and an
empty element. -/
def catSection (ch : AICategorizedChanges) (repoUrl : Option Line)
    (c : ChangelogCategory) : List Line :=
  let es := ch.categories c
  if es.isEmpty then []
  else (("### ").data ++ catName c ++ ['\n']) ::
    es.map (fun d => formatEntry ⟨c, d, []⟩ repoUrl) ++ [[]]

/-- The full `sections` array built by `formatAIEntries`. -/
def aiSections (ch : AICategorizedChanges) (repoUrl : Option Line) :
    List Line :=
  CATEGORY_ORDER.flatMap (catSection ch repoUrl)

/-- `formatAIEntries(categorizedChanges, repoUrl?)`. -/
def formatAIEntries (ch : AICategorizedChanges) (repoUrl : Option Line) :
    Line :=
  joinNL (aiSections ch repoUrl)

/-- The individual lines contributed by one category to the formatted
block (the result of splitting that category's section on newlines). -/
def catLines (ch : AICategorizedChanges) (c : ChangelogCategory) :
    List Line :=
  if (ch.categories c).isEmpty then []
  else (("### ").data ++ catName c) :: [] ::
    (ch.categories c).map (fun d => '-' :: ' ' :: d) ++ [[]]

/-- The entry list a well-formed formatted block parses back to:
one entry per description, grouped in the fixed category order. -/
def catEntries (ch : AICategorizedChanges) (cs : List ChangelogCategory) :
    List ChangelogEntry :=
  cs.flatMap (fun c => (ch.categories c).map (fun d => ⟨c, d, []⟩))

/-- The header line `## [<version>]`, with ` - <date>` appended when a
date is supplied (the `header` local of `formatVersion`). -/
def versionHeaderLine (version : Line) (date : Option JSDate) : Line :=
  (("## [").data) ++ version ++ ']' ::
    (match date with
     | some d => (" - ").data ++ formatDate d
     | none => [])

/-- `formatVersion(version, date, categorizedChanges, repoUrl?)`. -/
def formatVersion (version : Line) (date : Option JSDate)
    (ch : AICategorizedChanges) (repoUrl : Option Line) : Line :=
  let header := versionHeaderLine version date
  let entriesContent := formatAIEntries ch repoUrl
  joinNL (if trim entriesContent ≠ [] then [header, [], entriesContent]
          else [header, []])

/-- `formatUnreleasedHeader()`. -/
def formatUnreleasedHeader : Line := ("## [Unreleased]\n").data

/-- `createNewChangelog(version, date, categorizedChanges, repoUrl?)`. -/
def createNewChangelog (version : Line) (date : JSDate)
    (ch : AICategorizedChanges) (repoUrl : Option Line) : Line :=
  joinNL
    [("# Changelog").data, [],
     ("All notable changes to this project will be documented in this file.").data,
     [],
     ("The format is based on [Keep a Changelog](https://keepachangelog.com/en/1.1.0/),").data,
     ("and this project adheres to [Semantic Versioning](https://semver.org/spec/v2.0.0.html).").data,
     [],
     formatUnreleasedHeader, [],
     formatVersion version (some date) ch repoUrl]

/-- The insertion-point scan loop of `insertVersion` (writer module),
with its exact branch order: an Unreleased header sets the flag and
continues; with the flag set, a loose version-header match is the
insertion point; without it, a `'## '`-prefixed line is.  Returns the
0-based index relative to the list given, or `none`. -/
def scanIdx : List Line → Bool → Option Nat
  | [], _ => none
  | l :: rest, found =>
    if isUnrelHeader l then (scanIdx rest true).map (· + 1)
    else if found && looseVer l then some 0
    else if !found && startsHH l then some 0
    else (scanIdx rest found).map (· + 1)

/-- The fallback scan of `insertVersion`: index of the first
`'## '`-prefixed line, or the number of lines when there is none (the
`insertIndex = lines.length` case of the source). -/
def fbIdx : List Line → Nat
  | [] => 0
  | l :: rest => if startsHH l then 0 else fbIdx rest + 1

/-- The insertion index `insertVersion` ends up using. -/
def insertIdx (lines : List Line) : Nat :=
  match scanIdx lines false with
  | some k => k
  | none => fbIdx lines

/-- `insertVersion(existingContent, version, date, categorizedChanges,
repoUrl?)` (writer module). -/
def insertVersion (existingContent : List Char) (version : Line)
    (date : JSDate) (ch : AICategorizedChanges) (repoUrl : Option Line) :
    List Char :=
  let lines := splitNL existingContent
  let newVersionContent := formatVersion version (some date) ch repoUrl
  let k := insertIdx lines
  joinNL (lines.take k ++ [newVersionContent, []] ++ lines.drop k)

/-- The scan loop of `updateUnreleasedSection`: `unreleasedStart` is
overwritten at every Unreleased-header line; once set, the first
following loose version-header line fixes `unreleasedEnd` and stops the
loop.  Returns the final `(unreleasedStart, unreleasedEnd)` as options
(`none` standing for the sentinel `-1`). -/
def scanUnrel : List Line → Nat → Option Nat → Option Nat × Option Nat
  | [], _, st => (st, none)
  | l :: rest, i, st =>
    if isUnrelHeader l then scanUnrel rest (i + 1) (some i)
    else if st.isSome && looseVer l then (st, some i)
    else scanUnrel rest (i + 1) st

/-- `updateUnreleasedSection(existingContent, categorizedChanges)`
(writer module). -/
def updateUnreleasedSection (existingContent : List Char)
    (ch : AICategorizedChanges) : List Char :=
  let lines := splitNL existingContent
  match scanUnrel lines 0 none with
  | (none, _) => existingContent
  | (some st, en) =>
    let en' := en.getD lines.length
    let newUnreleasedContent :=
      formatVersion (("Unreleased").data) none ch none
    joinNL (lines.take st ++ [newUnreleasedContent, []] ++ lines.drop en')

/-- `writeChangelog(filePath, version, date, categorizedChanges,
repoUrl?)`: returns the content persisted to the file; `existsSync` and
`readFileSync` are modelled by the optional existing content. -/
def writeChangelog (existing : Option (List Char)) (version : Line)
    (date : JSDate) (ch : AICategorizedChanges) (repoUrl : Option Line) :
    List Char :=
  match existing with
  | some existingContent => insertVersion existingContent version date ch repoUrl
  | none => createNewChangelog version date ch repoUrl

/-- `previewChangelog(filePath, version, date, categorizedChanges,
repoUrl?)`: the string returned for dry-run display, under the same
file-system modelling. -/
def previewChangelog (existing : Option (List Char)) (version : Line)
    (date : JSDate) (ch : AICategorizedChanges) (repoUrl : Option Line) :
    List Char :=
  match existing with
  | some existingContent => insertVersion existingContent version date ch repoUrl
  | none => createNewChangelog version date ch repoUrl

/-! ### Lemmas about splitting and joining on newlines -/

theorem splitNL_ne_nil (c : List Char) : splitNL c ≠ [] := by
  induction c with
  | nil => simp [splitNL]
  | cons x xs ih =>
    simp only [splitNL]
    split
    · simp
    · cases h : splitNL xs with
      | nil => simp
      | cons l ls => simp

theorem splitNL_append (a b : List Char) :
    splitNL (a ++ '\n' :: b) = splitNL a ++ splitNL b := by
  induction a with
  | nil => simp [splitNL]
  | cons x xs ih =>
    by_cases hx : x = '\n'
    · subst hx
      simp [splitNL, ih]
    · simp only [List.cons_append, splitNL, if_neg hx, List.append_eq]
      rw [ih]
      cases h : splitNL xs with
      | nil => exact absurd h (splitNL_ne_nil xs)
      | cons l ls => simp

theorem splitNL_no_nl (a : List Char) (h : '\n' ∉ a) : splitNL a = [a] := by
  induction a with
  | nil => rfl
  | cons x xs ih =>
    have hx : x ≠ '\n' := fun hc => h (hc ▸ List.mem_cons_self x xs)
    have h' : '\n' ∉ xs := fun hc => h (List.mem_cons_of_mem x hc)
    simp only [splitNL, if_neg hx, ih h']

theorem joinNL_append (xs ys : List Line) (hxs : xs ≠ []) (hys : ys ≠ []) :
    joinNL (xs ++ ys) = joinNL xs ++ '\n' :: joinNL ys := by
  induction xs with
  | nil => exact absurd rfl hxs
  | cons l ls ih =>
    cases ls with
    | nil =>
      cases ys with
      | nil => exact absurd rfl hys
      | cons y yt => simp [joinNL]
    | cons l2 lt =>
      have ih' := ih (by simp)
      have h2 : (l :: l2 :: lt) ++ ys = l :: ((l2 :: lt) ++ ys) := rfl
      have h3 : (l2 :: lt) ++ ys = l2 :: (lt ++ ys) := rfl
      have h4 : joinNL (l :: l2 :: (lt ++ ys)) =
          l ++ '\n' :: joinNL (l2 :: (lt ++ ys)) := rfl
      have h1 : joinNL (l :: l2 :: lt) = l ++ '\n' :: joinNL (l2 :: lt) := rfl
      rw [h2, h3, h4, ← h3, ih', h1]
      simp [List.append_assoc]

theorem joinNL_splitNL (c : List Char) : joinNL (splitNL c) = c := by
  induction c with
  | nil => rfl
  | cons x xs ih =>
    by_cases hx : x = '\n'
    · subst hx
      simp only [splitNL, if_pos rfl]
      cases h : splitNL xs with
      | nil => exact absurd h (splitNL_ne_nil xs)
      | cons l ls => rw [← h]; simpa [joinNL, h] using ih
    · simp only [splitNL, if_neg hx]
      cases h : splitNL xs with
      | nil => exact absurd h (splitNL_ne_nil xs)
      | cons l ls =>
        cases ls with
        | nil => simpa [joinNL, h] using ih
        | cons l2 lt => simpa [joinNL, h] using ih

theorem splitNL_joinNL (xs : List Line) (hne : xs ≠ []) :
    splitNL (joinNL xs) = xs.flatMap splitNL := by
  induction xs with
  | nil => exact absurd rfl hne
  | cons l ls ih =>
    cases ls with
    | nil => simp [joinNL]
    | cons l2 lt =>
      have hj : joinNL (l :: l2 :: lt) = l ++ '\n' :: joinNL (l2 :: lt) := rfl
      rw [hj, splitNL_append, ih (by simp)]
      simp

theorem flatMap_splitNL_of (xs : List Line) (h : ∀ l ∈ xs, '\n' ∉ l) :
    xs.flatMap splitNL = xs := by
  induction xs with
  | nil => rfl
  | cons l ls ih =>
    simp only [List.flatMap_cons]
    rw [splitNL_no_nl l (h l (List.mem_cons_self l ls)),
      ih (fun x hx => h x (List.mem_cons_of_mem l hx))]
    rfl

theorem splitNL_joinNL_of (xs : List Line) (hne : xs ≠ [])
    (h : ∀ l ∈ xs, '\n' ∉ l) : splitNL (joinNL xs) = xs := by
  rw [splitNL_joinNL xs hne, flatMap_splitNL_of xs h]

/-! ### Lemmas about `trim`, `takeWhile` and `dropWhile` -/

theorem takeWhile_app {p : Char → Bool} (A : List Char) (b : Char)
    (B : List Char) (hA : ∀ c ∈ A, p c = true) (hb : p b = false) :
    (A ++ b :: B).takeWhile p = A := by
  induction A with
  | nil => simp [List.takeWhile, hb]
  | cons x xs ih =>
    have hx : p x = true := hA x (List.mem_cons_self x xs)
    simp only [List.cons_append, List.takeWhile_cons, hx, if_true]
    rw [ih (fun c hc => hA c (List.mem_cons_of_mem x hc))]

theorem dropWhile_app {p : Char → Bool} (A : List Char) (b : Char)
    (B : List Char) (hA : ∀ c ∈ A, p c = true) (hb : p b = false) :
    (A ++ b :: B).dropWhile p = b :: B := by
  induction A with
  | nil => simp [List.dropWhile, hb]
  | cons x xs ih =>
    have hx : p x = true := hA x (List.mem_cons_self x xs)
    simp only [List.cons_append, List.dropWhile_cons, hx, if_true]
    exact ih (fun c hc => hA c (List.mem_cons_of_mem x hc))

theorem takeWhile_nil_of_trim_eq (l : Line) (h : trim l = l) :
    l.takeWhile jsWS = [] := by
  have h1 : (l.dropWhile jsWS).length ≤ l.length :=
    (List.dropWhile_sublist jsWS :
      (l.dropWhile jsWS).Sublist l).length_le
  have h2 : (trim l).length ≤ (l.dropWhile jsWS).length := by
    unfold trim
    rw [List.length_reverse]
    calc ((l.dropWhile jsWS).reverse.dropWhile jsWS).length
        ≤ (l.dropWhile jsWS).reverse.length :=
          (List.dropWhile_sublist jsWS :
            ((l.dropWhile jsWS).reverse.dropWhile jsWS).Sublist
              (l.dropWhile jsWS).reverse).length_le
      _ = (l.dropWhile jsWS).length := List.length_reverse _
  have h3 : (l.dropWhile jsWS).length = l.length := by
    have := h ▸ h2
    omega
  have h4 : (l.takeWhile jsWS).length = 0 := by
    have h5 := congrArg List.length (List.takeWhile_append_dropWhile jsWS l)
    rw [List.length_append] at h5
    omega
  exact List.eq_nil_of_length_eq_zero h4

theorem trim_ne_nil (l : Line) (c : Char) (hc : c ∈ l)
    (hw : jsWS c = false) : trim l ≠ [] := by
  intro h0
  have h1 : (l.dropWhile jsWS).reverse.dropWhile jsWS = [] :=
    List.reverse_eq_nil_iff.mp h0
  have h2 : ∀ x ∈ (l.dropWhile jsWS).reverse, jsWS x :=
    List.dropWhile_eq_nil_iff.mp h1
  have h3 : ∀ x ∈ l.dropWhile jsWS, jsWS x := by
    intro x hx
    exact h2 x (List.mem_reverse.mpr hx)
  have h4 : c ∈ l.takeWhile jsWS ++ l.dropWhile jsWS := by
    rw [List.takeWhile_append_dropWhile jsWS l]; exact hc
  rcases List.mem_append.mp h4 with h5 | h5
  · exact absurd (List.mem_takeWhile_imp h5) (by simp [hw])
  · exact absurd (h3 c h5) (by simp [hw])

theorem trim_eq_of_ends (l : Line) (hh : l.takeWhile jsWS = [])
    (ht : l.reverse.takeWhile jsWS = []) : trim l = l := by
  have h1 : l.dropWhile jsWS = l := by
    have := List.takeWhile_append_dropWhile jsWS l
    rw [hh] at this
    simpa using this
  have h2 : l.reverse.dropWhile jsWS = l.reverse := by
    have := List.takeWhile_append_dropWhile jsWS l.reverse
    rw [ht] at this
    simpa using this
  unfold trim
  rw [h1, h2, List.reverse_reverse]

/-! ### Lemmas about decimal digit rendering -/

theorem digitChar_facts (n : Nat) (h : n < 10) :
    (digitChar n).isDigit = true ∧ jsWS (digitChar n) = false ∧
      dotOK (digitChar n) = true ∧ digitChar n ≠ '\n' ∧
      charVal (digitChar n) = n := by
  interval_cases n <;> refine ⟨by decide, by decide, by decide, by decide, by decide⟩

theorem natCharsAux_eq (fuel n : Nat) (h : n ≤ fuel) :
    natCharsAux fuel n = (Nat.digits 10 n).map digitChar := by
  induction fuel generalizing n with
  | zero =>
    have : n = 0 := Nat.le_zero.mp h
    subst this
    simp [natCharsAux, Nat.digits]
  | succ f ih =>
    cases n with
    | zero => simp [natCharsAux, Nat.digits]
    | succ m =>
      have hdiv : (m + 1) / 10 ≤ f := by
        have h1 : (m + 1) / 10 < m + 1 := Nat.div_lt_self (by omega) (by norm_num)
        omega
      rw [natCharsAux, ih ((m + 1) / 10) hdiv,
        @Nat.digits_def' 10 (by norm_num) (m + 1) (by omega)]
      rfl

theorem natChars_eq (n : Nat) :
    natChars n = ((Nat.digits 10 n).map digitChar).reverse := by
  unfold natChars
  rw [natCharsAux_eq n n (Nat.le_refl n)]

theorem natChars_digits (n : Nat) :
    ∀ c ∈ natChars n, c.isDigit = true ∧ jsWS c = false ∧
      c ≠ '\n' := by
  intro c hc
  rw [natChars_eq] at hc
  simp only [List.mem_reverse, List.mem_map] at hc
  obtain ⟨d, hd, rfl⟩ := hc
  have hd10 : d < 10 := Nat.digits_lt_base (by norm_num) hd
  exact ⟨(digitChar_facts d hd10).1, (digitChar_facts d hd10).2.1,
    (digitChar_facts d hd10).2.2.2.1⟩

theorem padNat_digits (w n : Nat) :
    ∀ c ∈ padNat w n, c.isDigit = true ∧ jsWS c = false ∧
      c ≠ '\n' := by
  intro c hc
  rcases List.mem_append.mp hc with h | h
  · have : c = '0' := List.eq_of_mem_replicate h
    subst this
    exact ⟨by decide, by decide, by decide⟩
  · exact natChars_digits n c h

theorem natChars_length_le (w n : Nat) (h : n < 10 ^ w) :
    (natChars n).length ≤ w := by
  rw [natChars_eq]
  simp only [List.length_reverse, List.length_map]
  by_contra hlen
  push_neg at hlen
  rcases Nat.eq_zero_or_pos n with h0 | h0
  · subst h0; simp [Nat.digits] at hlen
  · have hb := Nat.base_pow_length_digits_le 10 n (by norm_num) (by omega)
    have h2 : (10 : Nat) ^ (w + 1) ≤ 10 ^ (Nat.digits 10 n).length :=
      Nat.pow_le_pow_right (by norm_num) (by omega)
    have h3 : (10 : Nat) ^ (w + 1) = 10 * 10 ^ w := by ring
    omega

theorem padNat_length (w n : Nat) (h : n < 10 ^ w) :
    (padNat w n).length = w := by
  have h1 := natChars_length_le w n h
  simp only [padNat, List.length_append, List.length_replicate]
  omega

theorem foldl_digitList (ds : List Nat) (acc : Nat) (h : ∀ d ∈ ds, d < 10) :
    ((ds.map digitChar).reverse).foldl (fun a c => 10 * a + charVal c) acc =
      acc * 10 ^ ds.length + Nat.ofDigits 10 ds := by
  induction ds generalizing acc with
  | nil => simp
  | cons d ds' ih =>
    have hd : d < 10 := h d (List.mem_cons_self d ds')
    have h' : ∀ x ∈ ds', x < 10 := fun x hx => h x (List.mem_cons_of_mem d hx)
    simp only [List.map_cons, List.reverse_cons, List.foldl_append,
      List.foldl_cons, List.foldl_nil]
    rw [ih acc h', (digitChar_facts d hd).2.2.2.2]
    simp only [Nat.ofDigits_cons, List.length_cons]
    ring

theorem toNum_natChars (n : Nat) : toNum (natChars n) = n := by
  unfold toNum
  rw [natChars_eq, foldl_digitList (Nat.digits 10 n) 0
    (fun d hd => Nat.digits_lt_base (by norm_num) hd)]
  simp [Nat.ofDigits_digits]

theorem toNum_padNat (w n : Nat) : toNum (padNat w n) = n := by
  unfold toNum padNat
  rw [List.foldl_append]
  have h1 : ∀ k, (List.replicate k '0').foldl
      (fun a c => 10 * a + charVal c) 0 = 0 := by
    intro k
    induction k with
    | zero => rfl
    | succ k ih => simpa [List.replicate_succ, charVal] using ih
  rw [h1]
  exact toNum_natChars n

/-! ### C9, C8, C10 -/

/-- C9: for every file state (existing content or absent) and all merge
inputs, `previewChangelog` returns exactly the content `writeChangelog`
persists — both go through the identical
`insertVersion`/`createNewChangelog` rendering path. -/
theorem preview_eq_write (existing : Option (List Char)) (version : Line)
    (date : JSDate) (ch : AICategorizedChanges) (repoUrl : Option Line) :
    previewChangelog existing version date ch repoUrl =
      writeChangelog existing version date ch repoUrl := by
  cases existing <;> rfl

/-- C8: `parseChangelog` is total — it returns a document for every
input and raises no error (the embedding is a total function) — and on
the empty string it returns title "Changelog", empty preamble and no
versions. -/
theorem parseChangelog_total_and_empty :
    parseChangelog [] = ⟨("Changelog").data, [], []⟩ ∧
      ∀ content : List Char, ∃ doc, parseChangelog content = doc :=
  ⟨by decide, fun content => ⟨parseChangelog content, rfl⟩⟩

theorem scanUnrel_no_unrel (ls : List Line) (i : Nat)
    (h : ∀ l ∈ ls, isUnrelHeader l = false) :
    scanUnrel ls i none = (none, none) := by
  induction ls generalizing i with
  | nil => rfl
  | cons l rest ih =>
    simp only [scanUnrel, h l (List.mem_cons_self l rest), Bool.false_eq_true,
      if_false, Option.isSome_none, Bool.false_and]
    exact ih (i + 1) (fun x hx => h x (List.mem_cons_of_mem l hx))

/-- C10: when the existing text contains no line matching the Unreleased
header pattern, `updateUnreleasedSection` returns the input unchanged. -/
theorem updateUnreleased_noop (content : List Char)
    (ch : AICategorizedChanges)
    (h : ∀ l ∈ splitNL content, isUnrelHeader l = false) :
    updateUnreleasedSection content ch = content := by
  unfold updateUnreleasedSection
  simp only [scanUnrel_no_unrel (splitNL content) 0 h]

/-- Witness for C10 at a concrete two-line document without an
Unreleased header. -/
theorem updateUnreleased_noop_w :
    updateUnreleasedSection (("# T\n- x").data) ⟨fun _ => []⟩ =
      ("# T\n- x").data :=
  updateUnreleased_noop (("# T\n- x").data) ⟨fun _ => []⟩ (by decide)

/-! ### C6: the splice preserves everything around the insertion point -/

theorem scanIdx_lt (ls : List Line) (f : Bool) (k : Nat)
    (h : scanIdx ls f = some k) : k < ls.length := by
  induction ls generalizing f k with
  | nil => simp [scanIdx] at h
  | cons l rest ih =>
    simp only [scanIdx] at h
    by_cases h1 : isUnrelHeader l
    · rw [if_pos h1] at h
      rcases Option.map_eq_some'.mp h with ⟨k', hk', rfl⟩
      have := ih true k' hk'
      simp only [List.length_cons]
      omega
    · rw [if_neg h1] at h
      by_cases h2 : f && looseVer l
      · rw [if_pos h2] at h
        cases h
        simp
      · rw [if_neg h2] at h
        by_cases h3 : !f && startsHH l
        · rw [if_pos h3] at h
          cases h
          simp
        · rw [if_neg h3] at h
          rcases Option.map_eq_some'.mp h with ⟨k', hk', rfl⟩
          have := ih f k' hk'
          simp only [List.length_cons]
          omega

theorem fbIdx_le (ls : List Line) : fbIdx ls ≤ ls.length := by
  induction ls with
  | nil => simp [fbIdx]
  | cons l rest ih =>
    simp only [fbIdx, List.length_cons]
    split
    · omega
    · omega

theorem insertIdx_le (ls : List Line) : insertIdx ls ≤ ls.length := by
  unfold insertIdx
  cases h : scanIdx ls false with
  | none => exact fbIdx_le ls
  | some k => exact Nat.le_of_lt (scanIdx_lt ls false k h)

/-- C6: `insertVersion` splices the rendered block plus one blank line at
the insertion index, keeping every line before and after it unchanged;
at the text level the output is the original text with one contiguous
insertion — the prefix and suffix around it are byte-identical. -/
theorem insertVersion_frame (content : List Char) (version : Line)
    (date : JSDate) (ch : AICategorizedChanges) (repoUrl : Option Line) :
    insertIdx (splitNL content) ≤ (splitNL content).length ∧
    insertVersion content version date ch repoUrl =
      joinNL ((splitNL content).take (insertIdx (splitNL content)) ++
        [formatVersion version (some date) ch repoUrl, []] ++
        (splitNL content).drop (insertIdx (splitNL content))) ∧
    ∃ pre suf, content = pre ++ suf ∧
      (insertVersion content version date ch repoUrl =
         pre ++ (formatVersion version (some date) ch repoUrl ++
           ['\n', '\n']) ++ suf ∨
       insertVersion content version date ch repoUrl =
         pre ++ ('\n' :: (formatVersion version (some date) ch repoUrl ++
           ['\n'])) ++ suf) := by
  refine ⟨insertIdx_le (splitNL content), rfl, ?_⟩
  set fv := formatVersion version (some date) ch repoUrl with hfv
  set ls := splitNL content with hls
  set k := insertIdx ls with hk
  have hlsne : ls ≠ [] := by rw [hls]; exact splitNL_ne_nil content
  have hkle : k ≤ ls.length := insertIdx_le ls
  have hcontent : content = joinNL ls := (joinNL_splitNL content).symm
  have hout : insertVersion content version date ch repoUrl =
      joinNL (ls.take k ++ [fv, []] ++ ls.drop k) := rfl
  have hj : joinNL [fv, []] = fv ++ ['\n'] := rfl
  rcases Nat.lt_or_ge k ls.length with hlt | hge
  · have hdrop : ls.drop k ≠ [] := by
      intro hnil
      have := congrArg List.length hnil
      simp only [List.length_drop, List.length_nil] at this
      omega
    rcases Nat.eq_zero_or_pos k with h0 | h0
    · refine ⟨[], content, by simp, Or.inl ?_⟩
      rw [h0] at hout
      simp only [List.take_zero, List.drop_zero, List.nil_append] at hout
      rw [hout, joinNL_append [fv, []] ls (by simp) hlsne, hj, hcontent]
      simp
    · have htake : ls.take k ≠ [] := by
        intro hnil
        have := congrArg List.length hnil
        simp only [List.length_take, List.length_nil] at this
        omega
      refine ⟨joinNL (ls.take k) ++ ['\n'], joinNL (ls.drop k), ?_, Or.inl ?_⟩
      · conv_lhs => rw [hcontent, ← List.take_append_drop k ls]
        rw [joinNL_append (ls.take k) (ls.drop k) htake hdrop]
        simp
      · rw [hout]
        have hassoc : ls.take k ++ [fv, []] ++ ls.drop k =
            ls.take k ++ ([fv, []] ++ ls.drop k) := by
          simp [List.append_assoc]
        rw [hassoc,
          joinNL_append (ls.take k) ([fv, []] ++ ls.drop k) htake (by simp),
          joinNL_append [fv, []] (ls.drop k) (by simp) hdrop, hj]
        simp
  · have hkeq : k = ls.length := le_antisymm hkle hge
    refine ⟨content, [], by simp, Or.inr ?_⟩
    rw [hout, hkeq, List.take_length, List.drop_length, List.append_nil,
      joinNL_append ls [fv, []] hlsne (by simp), hj, hcontent]
    simp

/-! ### The insertion-point scan: C1 and C5 -/

theorem scanIdx_cons_skip_false (l : Line) (rest : List Line)
    (h1 : isUnrelHeader l = false) (h2 : startsHH l = false) :
    scanIdx (l :: rest) false = (scanIdx rest false).map (· + 1) := by
  simp [scanIdx, h1, h2]

theorem scanIdx_cons_unrel (l : Line) (rest : List Line) (f : Bool)
    (h1 : isUnrelHeader l = true) :
    scanIdx (l :: rest) f = (scanIdx rest true).map (· + 1) := by
  simp [scanIdx, h1]

theorem scanIdx_cons_skip_true (l : Line) (rest : List Line)
    (h1 : isUnrelHeader l = false) (h2 : looseVer l = false) :
    scanIdx (l :: rest) true = (scanIdx rest true).map (· + 1) := by
  simp [scanIdx, h1, h2]

theorem scanIdx_cons_hit (l : Line) (rest : List Line)
    (h1 : isUnrelHeader l = false) (h2 : looseVer l = true) :
    scanIdx (l :: rest) true = some 0 := by
  simp [scanIdx, h1, h2]

theorem scanIdx_cons_start (l : Line) (rest : List Line)
    (h1 : isUnrelHeader l = false) (h2 : startsHH l = true) :
    scanIdx (l :: rest) false = some 0 := by
  simp [scanIdx, h1, h2]

theorem scanIdx_append_false (pre rest : List Line)
    (h : ∀ l ∈ pre, startsHH l = false ∧ isUnrelHeader l = false) :
    scanIdx (pre ++ rest) false =
      (scanIdx rest false).map (· + pre.length) := by
  induction pre with
  | nil =>
    cases h2 : scanIdx rest false <;> simp [h2]
  | cons l pre' ih =>
    have hl := h l (List.mem_cons_self l pre')
    rw [List.cons_append, scanIdx_cons_skip_false l (pre' ++ rest) hl.2 hl.1,
      ih (fun x hx => h x (List.mem_cons_of_mem l hx))]
    cases h2 : scanIdx rest false with
    | none => simp
    | some k =>
      simp only [Option.map_some', List.length_cons, Option.some.injEq]
      omega

theorem scanIdx_true_found (mid : List Line) (lv : Line) (post : List Line)
    (hmid : ∀ l ∈ mid, looseVer l = true → isUnrelHeader l = true)
    (hv1 : looseVer lv = true) (hv2 : isUnrelHeader lv = false) :
    scanIdx (mid ++ lv :: post) true = some mid.length := by
  induction mid with
  | nil => exact scanIdx_cons_hit lv post hv2 hv1
  | cons l mid' ih =>
    have ih' := ih (fun x hx => hmid x (List.mem_cons_of_mem l hx))
    by_cases hu : isUnrelHeader l = true
    · rw [List.cons_append, scanIdx_cons_unrel l (mid' ++ lv :: post) true hu,
        ih']
      simp
    · have hu' : isUnrelHeader l = false := by

        cases h : isUnrelHeader l
        · rfl
        · exact absurd h hu
      have hl : looseVer l = false := by
        cases h : looseVer l
        · rfl
        · exact absurd (hmid l (List.mem_cons_self l mid') h) hu
      rw [List.cons_append, scanIdx_cons_skip_true l (mid' ++ lv :: post) hu' hl,
        ih']
      simp

theorem scanIdx_true_none (mid : List Line)
    (hmid : ∀ l ∈ mid, looseVer l = true → isUnrelHeader l = true) :
    scanIdx mid true = none := by
  induction mid with
  | nil => rfl
  | cons l mid' ih =>
    have ih' := ih (fun x hx => hmid x (List.mem_cons_of_mem l hx))
    by_cases hu : isUnrelHeader l = true
    · rw [scanIdx_cons_unrel l mid' true hu, ih']
      rfl
    · have hu' : isUnrelHeader l = false := by
        cases h : isUnrelHeader l
        · rfl
        · exact absurd h hu
      have hl : looseVer l = false := by
        cases h : looseVer l
        · rfl
        · exact absurd (hmid l (List.mem_cons_self l mid') h) hu
      rw [scanIdx_cons_skip_true l mid' hu' hl, ih']
      rfl

theorem fbIdx_append (pre rest : List Line)
    (h : ∀ l ∈ pre, startsHH l = false) :
    fbIdx (pre ++ rest) = pre.length + fbIdx rest := by
  induction pre with
  | nil => simp
  | cons l pre' ih =>
    rw [List.cons_append]
    simp only [fbIdx, h l (List.mem_cons_self l pre'), Bool.false_eq_true,
      if_false, ih (fun x hx => h x (List.mem_cons_of_mem l hx)),
      List.length_cons]
    omega

theorem insertVersion_unfold (content : List Char) (version : Line)
    (date : JSDate) (ch : AICategorizedChanges) (repoUrl : Option Line) :
    insertVersion content version date ch repoUrl =
      joinNL ((splitNL content).take (insertIdx (splitNL content)) ++
        [formatVersion version (some date) ch repoUrl, []] ++
        (splitNL content).drop (insertIdx (splitNL content))) := rfl

/-- C1 (amended): (a) when no `'## '`-prefixed line and no Unreleased
header precedes the first Unreleased header, and a version-header line
(a loose match that is not itself an Unreleased header) follows it, the
block is spliced immediately before the first such version-header line,
i.e. between the Unreleased section and the first concrete version;
(b) when the text has no Unreleased header at all but has a line
starting with `'## '`, the block is spliced immediately before the
first such line. -/
theorem insertVersion_precedence :
    (∀ (pre mid post : List Line) (lu lv : Line) (version : Line)
       (date : JSDate) (ch : AICategorizedChanges) (repoUrl : Option Line),
      (∀ l ∈ pre ++ lu :: mid ++ lv :: post, '\n' ∉ l) →
      (∀ l ∈ pre, startsHH l = false ∧ isUnrelHeader l = false) →
      isUnrelHeader lu = true →
      (∀ l ∈ mid, looseVer l = true → isUnrelHeader l = true) →
      looseVer lv = true → isUnrelHeader lv = false →
      insertVersion (joinNL (pre ++ lu :: mid ++ lv :: post))
          version date ch repoUrl =
        joinNL (pre ++ lu :: mid ++
          [formatVersion version (some date) ch repoUrl, []] ++
          lv :: post)) ∧
    (∀ (pre post : List Line) (lw : Line) (version : Line)
       (date : JSDate) (ch : AICategorizedChanges) (repoUrl : Option Line),
      (∀ l ∈ pre ++ lw :: post, '\n' ∉ l) →
      (∀ l ∈ pre ++ lw :: post, isUnrelHeader l = false) →
      (∀ l ∈ pre, startsHH l = false) →
      startsHH lw = true →
      insertVersion (joinNL (pre ++ lw :: post)) version date ch repoUrl =
        joinNL (pre ++
          [formatVersion version (some date) ch repoUrl, []] ++
          lw :: post)) := by
  constructor
  · intro pre mid post lu lv version date ch repoUrl hNL hpre hu hmid hv1 hv2
    have hlsne : pre ++ lu :: mid ++ lv :: post ≠ [] := by
      cases pre <;> simp
    have hsplit : splitNL (joinNL (pre ++ lu :: mid ++ lv :: post)) =
        pre ++ lu :: mid ++ lv :: post :=
      splitNL_joinNL_of _ hlsne hNL
    have hscan : scanIdx (pre ++ lu :: mid ++ lv :: post) false =
        some (mid.length + 1 + pre.length) := by
      rw [List.append_assoc,
        scanIdx_append_false pre ((lu :: mid) ++ lv :: post) hpre,
        List.cons_append, scanIdx_cons_unrel lu (mid ++ lv :: post) false hu,
        scanIdx_true_found mid lv post hmid hv1 hv2]
      rfl
    have hidx : insertIdx (pre ++ lu :: mid ++ lv :: post) =
        mid.length + 1 + pre.length := by
      unfold insertIdx
      rw [hscan]
    rw [insertVersion_unfold, hsplit, hidx]
    have hAlen : mid.length + 1 + pre.length = (pre ++ lu :: mid).length := by
      simp only [List.length_append, List.length_cons]
      omega
    rw [hAlen, List.take_left, List.drop_left]
  · intro pre post lw version date ch repoUrl hNL hnou hpre hw
    have hlsne : pre ++ lw :: post ≠ [] := by
      cases pre <;> simp
    have hsplit : splitNL (joinNL (pre ++ lw :: post)) = pre ++ lw :: post :=
      splitNL_joinNL_of _ hlsne hNL
    have hwu : isUnrelHeader lw = false :=
      hnou lw (List.mem_append_right pre (List.mem_cons_self lw post))
    have hpre' : ∀ l ∈ pre, startsHH l = false ∧ isUnrelHeader l = false :=
      fun l hl => ⟨hpre l hl, hnou l (List.mem_append_left _ hl)⟩
    have hscan : scanIdx (pre ++ lw :: post) false = some pre.length := by
      rw [scanIdx_append_false pre (lw :: post) hpre',
        scanIdx_cons_start lw post hwu hw]
      simp
    have hidx : insertIdx (pre ++ lw :: post) = pre.length := by
      unfold insertIdx
      rw [hscan]
    rw [insertVersion_unfold, hsplit, hidx, List.take_left, List.drop_left]

/-- C1 counterexample: the claim quantifies over every text containing an
Unreleased header followed by a version header, but when another
`'## '`-prefixed line precedes the Unreleased header the block is
spliced before that earlier line, not between Unreleased and the
following version. -/
theorem insertVersion_precedence_cex :
    insertVersion (("## 1.0.0\n## [Unreleased]\n## 0.9.0").data)
        (("1.1.0").data) ⟨2024, 5, 7⟩ ⟨fun _ => []⟩ none =
      ("## [1.1.0] - 2024-05-07\n\n\n## 1.0.0\n## [Unreleased]\n## 0.9.0").data ∧
    insertVersion (("## 1.0.0\n## [Unreleased]\n## 0.9.0").data)
        (("1.1.0").data) ⟨2024, 5, 7⟩ ⟨fun _ => []⟩ none ≠
      joinNL ([("## 1.0.0").data, ("## [Unreleased]").data] ++
        [formatVersion (("1.1.0").data) (some ⟨2024, 5, 7⟩) ⟨fun _ => []⟩ none,
         []] ++ [("## 0.9.0").data]) :=
  ⟨by decide, by decide⟩

/-- Witness for C1 at concrete documents: part (a) on a document with a
title line, an Unreleased section and one concrete version; part (b) on
a document with no Unreleased header. -/
theorem insertVersion_precedence_w :
    insertVersion (joinNL [("# T").data, ("## [Unreleased]").data, [],
        ("## [1.0.0] - 2024-01-01").data])
        (("1.1.0").data) ⟨2024, 5, 7⟩ ⟨fun _ => []⟩ none =
      joinNL ([("# T").data] ++ ("## [Unreleased]").data :: [[]] ++
        [formatVersion (("1.1.0").data) (some ⟨2024, 5, 7⟩) ⟨fun _ => []⟩ none,
         []] ++ ("## [1.0.0] - 2024-01-01").data :: []) ∧
    insertVersion (joinNL [("# T").data, ("## [1.0.0] - 2024-01-01").data])
        (("1.1.0").data) ⟨2024, 5, 7⟩ ⟨fun _ => []⟩ none =
      joinNL ([("# T").data] ++
        [formatVersion (("1.1.0").data) (some ⟨2024, 5, 7⟩) ⟨fun _ => []⟩ none,
         []] ++ ("## [1.0.0] - 2024-01-01").data :: []) :=
  ⟨insertVersion_precedence.1 [("# T").data] [[]] []
      (("## [Unreleased]").data) (("## [1.0.0] - 2024-01-01").data)
      (("1.1.0").data) ⟨2024, 5, 7⟩ ⟨fun _ => []⟩ none
      (by decide) (by decide) (by decide) (by decide) (by decide) (by decide),
   insertVersion_precedence.2 [("# T").data] []
      (("## [1.0.0] - 2024-01-01").data)
      (("1.1.0").data) ⟨2024, 5, 7⟩ ⟨fun _ => []⟩ none
      (by decide) (by decide) (by decide) (by decide)⟩

/-- C5 (amended): when the text contains an Unreleased header (with no
`'## '`-prefixed or Unreleased line before it) and no version-header
line after it, the scan finds no insertion point and the fallback
splices the block immediately before the first `'## '`-prefixed line of
the whole document — in particular, when the Unreleased header itself
starts with `'## '`, the block lands directly before the Unreleased
header (not at the end of the document); only when no line at all starts
with `'## '` is the block appended at the end. -/
theorem insertVersion_unreleased_tail (pre mid : List Line) (lu : Line)
    (version : Line) (date : JSDate) (ch : AICategorizedChanges)
    (repoUrl : Option Line)
    (hNL : ∀ l ∈ pre ++ lu :: mid, '\n' ∉ l)
    (hpre : ∀ l ∈ pre, startsHH l = false ∧ isUnrelHeader l = false)
    (hu : isUnrelHeader lu = true)
    (hmid : ∀ l ∈ mid, looseVer l = true → isUnrelHeader l = true) :
    insertVersion (joinNL (pre ++ lu :: mid)) version date ch repoUrl =
      joinNL ((pre ++ lu :: mid).take (fbIdx (pre ++ lu :: mid)) ++
        [formatVersion version (some date) ch repoUrl, []] ++
        (pre ++ lu :: mid).drop (fbIdx (pre ++ lu :: mid))) ∧
    (startsHH lu = true → fbIdx (pre ++ lu :: mid) = pre.length) := by
  have hlsne : pre ++ lu :: mid ≠ [] := by
    cases pre <;> simp
  have hsplit : splitNL (joinNL (pre ++ lu :: mid)) = pre ++ lu :: mid :=
    splitNL_joinNL_of _ hlsne hNL
  have hscan : scanIdx (pre ++ lu :: mid) false = none := by
    rw [scanIdx_append_false pre (lu :: mid) hpre,
      scanIdx_cons_unrel lu mid false hu, scanIdx_true_none mid hmid]
    rfl
  have hidx : insertIdx (pre ++ lu :: mid) = fbIdx (pre ++ lu :: mid) := by
    unfold insertIdx
    rw [hscan]
  constructor
  · rw [insertVersion_unfold, hsplit, hidx]
  · intro hwHH
    rw [fbIdx_append pre (lu :: mid) (fun l hl => (hpre l hl).1)]
    simp [fbIdx, hwHH]

/-- C5 counterexample: on a document consisting of an Unreleased header
and one pending bullet (no version header after it), the block is placed
at the very beginning — before the Unreleased header — not at the end of
the document as the claim states. -/
theorem insertVersion_unreleased_tail_cex :
    insertVersion (("## [Unreleased]\n- pending").data) (("1.1.0").data)
        ⟨2024, 5, 7⟩ ⟨fun _ => []⟩ none =
      ("## [1.1.0] - 2024-05-07\n\n\n## [Unreleased]\n- pending").data ∧
    insertVersion (("## [Unreleased]\n- pending").data) (("1.1.0").data)
        ⟨2024, 5, 7⟩ ⟨fun _ => []⟩ none ≠
      ("## [Unreleased]\n- pending\n## [1.1.0] - 2024-05-07\n\n").data :=
  ⟨by decide, by decide⟩

/-- Witness for C5 at a concrete document with a title, an Unreleased
header and only non-version content after it. -/
theorem insertVersion_unreleased_tail_w :
    insertVersion (joinNL [("# T").data, [], ("## [Unreleased]").data,
        ("- note").data]) (("1.1.0").data) ⟨2024, 5, 7⟩ ⟨fun _ => []⟩ none =
      joinNL (([("# T").data, []] ++ ("## [Unreleased]").data ::
          [("- note").data]).take
          (fbIdx ([("# T").data, []] ++ ("## [Unreleased]").data ::
            [("- note").data])) ++
        [formatVersion (("1.1.0").data) (some ⟨2024, 5, 7⟩) ⟨fun _ => []⟩ none,
         []] ++
        ([("# T").data, []] ++ ("## [Unreleased]").data ::
          [("- note").data]).drop
          (fbIdx ([("# T").data, []] ++ ("## [Unreleased]").data ::
            [("- note").data]))) ∧
    (startsHH (("## [Unreleased]").data) = true →
      fbIdx ([("# T").data, []] ++ ("## [Unreleased]").data ::
        [("- note").data]) = [("# T").data, ([] : Line)].length) :=
  insertVersion_unreleased_tail [("# T").data, []] [("- note").data]
    (("## [Unreleased]").data) (("1.1.0").data) ⟨2024, 5, 7⟩ ⟨fun _ => []⟩
    none (by decide) (by decide) (by decide) (by decide)

/-! ### C7: the title rule -/

/-- C7 (amended): the parser sets the title from a `'# '` line exactly
when its index is below 5 — the check is purely positional; no other
branch of the scan loop ever modifies the title, but whether a version
header was already seen plays no role (a `'# '` line within the first
five lines sets the title even after a version header). -/
theorem parse_title_rule :
    (∀ (i : Nat) (line : Line) (s : PState), startsH1 line = true → i < 5 →
      parseStep i line s =
        { s with title := trim (line.drop 2), inPreamble := true }) ∧
    (∀ (i : Nat) (line : Line) (s : PState),
      (startsH1 line = true → ¬ i < 5) →
      (parseStep i line s).title = s.title) := by
  constructor
  · intro i line s h1 h2
    unfold parseStep
    rw [if_pos ⟨h1, h2⟩]
  · intro i line s h
    unfold parseStep
    rw [if_neg (fun hc => h hc.1 hc.2)]
    split
    · simp
    · split
      · split <;> simp
      · split
        · simp
        · split <;> simp

/-- C7 counterexample: a `'# '` line at index 1, after the version
header at index 0, still sets the title — contradicting the claim that a
`'# '` line appearing after a version header never sets the title. -/
theorem parse_title_rule_cex :
    parseChangelog (("## [1.0.0] - 2024-01-01\n# Late Title").data) =
      ⟨("Late Title").data, [],
       [⟨("1.0.0").data, some ⟨2024, 1, 1⟩, []⟩]⟩ ∧
    ("Late Title").data ≠ ("Changelog").data :=
  ⟨by decide, by decide⟩

/-- Witness for C7: the title branch fires at index 1 and is skipped at
index 7 for the same line and state. -/
theorem parse_title_rule_w :
    parseStep 1 (("# Hello").data) initPState =
      { initPState with
        title := trim ((("# Hello").data).drop 2),
        inPreamble := true } ∧
    (parseStep 7 (("# Hello").data) initPState).title = initPState.title :=
  ⟨parse_title_rule.1 1 (("# Hello").data) initPState (by decide) (by decide),
   parse_title_rule.2 7 (("# Hello").data) initPState (by decide)⟩

/-! ### C4: category headings -/

theorem matchCat_shape (l : Line) (cap : Line) (h : matchCat l = some cap) :
    startsH1 l = false ∧ versionHeaderMatch l = none := by
  cases l with
  | nil => simp [matchCat] at h
  | cons a t1 =>
    cases t1 with
    | nil => simp [matchCat] at h
    | cons b t2 =>
      cases t2 with
      | nil => simp [matchCat] at h
      | cons c t3 =>
        by_cases hc : (a == '#' && b == '#' && c == '#') = true
        · simp only [Bool.and_eq_true, beq_iff_eq] at hc
          obtain ⟨⟨ha, hb⟩, hcc⟩ := hc
          subst ha; subst hb; subst hcc
          exact ⟨rfl, rfl⟩
        · rw [matchCat, if_neg hc] at h
          cases h

theorem stepCatUnmatched (i : Nat) (line : Line) (s : PState) (cap : Line)
    (hm : matchCat line = some cap) (hver : s.currentVersion.isSome = true)
    (hfind : VALID_CATEGORIES.find?
        (fun c => lowerL (catName c) == lowerL (trim cap)) = none) :
    parseStep i line s = s := by
  obtain ⟨h1, h2⟩ := matchCat_shape line cap hm
  obtain ⟨v, hv⟩ := Option.isSome_iff_exists.mp hver
  unfold parseStep
  rw [if_neg (fun hc => by rw [h1] at hc; exact absurd hc.1 (by simp))]
  simp only [h2, hm, hv, hfind]

theorem stepCatMatched (i : Nat) (line : Line) (s : PState) (cap : Line)
    (c : ChangelogCategory)
    (hm : matchCat line = some cap) (hver : s.currentVersion.isSome = true)
    (hfind : VALID_CATEGORIES.find?
        (fun c' => lowerL (catName c') == lowerL (trim cap)) = some c) :
    parseStep i line s = { s with currentCategory := some c } := by
  obtain ⟨h1, h2⟩ := matchCat_shape line cap hm
  obtain ⟨v, hv⟩ := Option.isSome_iff_exists.mp hver
  unfold parseStep
  rw [if_neg (fun hc => by rw [h1] at hc; exact absurd hc.1 (by simp))]
  simp only [h2, hm, hv, hfind]

/-- C4 (corrected): a third-level heading whose text does not match one
of the six categories case-insensitively leaves the parser state — in
particular the current category — entirely unchanged (it does not clear
it), so following bullets attach to the previously recognized category;
a heading that does match case-insensitively sets that category. -/
theorem parse_category_rule :
    (∀ (i : Nat) (line : Line) (s : PState) (cap : Line),
      matchCat line = some cap → s.currentVersion.isSome = true →
      VALID_CATEGORIES.find?
          (fun c => lowerL (catName c) == lowerL (trim cap)) = none →
      parseStep i line s = s) ∧
    (∀ (i : Nat) (line : Line) (s : PState) (cap : Line)
       (c : ChangelogCategory),
      matchCat line = some cap → s.currentVersion.isSome = true →
      VALID_CATEGORIES.find?
          (fun c' => lowerL (catName c') == lowerL (trim cap)) = some c →
      parseStep i line s = { s with currentCategory := some c }) :=
  ⟨fun i line s cap hm hver hfind =>
    stepCatUnmatched i line s cap hm hver hfind,
   fun i line s cap c hm hver hfind =>
    stepCatMatched i line s cap c hm hver hfind⟩

/-- C4 counterexample: in a document with `### Added`, a bullet, then
`### Miscellaneous` and another bullet, the second bullet is parsed with
category `Added` — it is attached to the nearest prior recognized
category, not dropped as the claim states. -/
theorem parse_category_rule_cex :
    parseChangelog
        (("## [1.0.0] - 2024-01-01\n### Added\n- a\n### Miscellaneous\n- b").data) =
      ⟨("Changelog").data, [],
       [⟨("1.0.0").data, some ⟨2024, 1, 1⟩,
         [⟨ChangelogCategory.added, ("a").data, []⟩,
          ⟨ChangelogCategory.added, ("b").data, []⟩]⟩]⟩ := by
  decide

/-- Witness for C4: `### Miscellaneous` leaves a concrete state
unchanged; `### fixed` (lowercase) sets the `Fixed` category. -/
theorem parse_category_rule_w :
    parseStep 3 (("### Miscellaneous").data)
      { initPState with currentVersion := some ⟨("1.0.0").data, none, []⟩ } =
      { initPState with currentVersion := some ⟨("1.0.0").data, none, []⟩ } ∧
    parseStep 3 (("### fixed").data)
      { initPState with currentVersion := some ⟨("1.0.0").data, none, []⟩ } =
      { { initPState with
          currentVersion := some ⟨("1.0.0").data, none, []⟩ } with
        currentCategory := some ChangelogCategory.fixed } :=
  ⟨parse_category_rule.1 3 (("### Miscellaneous").data)
      { initPState with currentVersion := some ⟨("1.0.0").data, none, []⟩ }
      (("Miscellaneous").data) (by decide) (by decide) (by decide),
   parse_category_rule.2 3 (("### fixed").data)
      { initPState with currentVersion := some ⟨("1.0.0").data, none, []⟩ }
      (("fixed").data) ChangelogCategory.fixed
      (by decide) (by decide) (by decide)⟩

/-! ### C2: format/parse round trip -/

theorem list_len4 (l : List Char) (h : l.length = 4) :
    ∃ a b c d, l = [a, b, c, d] := by
  rcases l with _ | ⟨a, _ | ⟨b, _ | ⟨c, _ | ⟨d, _ | ⟨e, t⟩⟩⟩⟩⟩ <;>
      simp only [List.length_nil, List.length_cons] at h
  · omega
  · omega
  · omega
  · omega
  · exact ⟨a, b, c, d, rfl⟩
  · omega

theorem list_len2 (l : List Char) (h : l.length = 2) :
    ∃ a b, l = [a, b] := by
  rcases l with _ | ⟨a, _ | ⟨b, _ | ⟨c, t⟩⟩⟩ <;>
      simp only [List.length_nil, List.length_cons] at h
  · omega
  · omega
  · exact ⟨a, b, rfl⟩
  · omega

theorem formatDate_explicit (y mo dy : Nat) (hy : y < 10000)
    (hm : mo < 100) (hd : dy < 100) :
    ∃ a b c d e f g h,
      formatDate ⟨y, mo, dy⟩ = [a, b, c, d, '-', e, f, '-', g, h] ∧
      padNat 4 y = [a, b, c, d] ∧ padNat 2 mo = [e, f] ∧
      padNat 2 dy = [g, h] := by
  have hp : (padNat 4 y).length = 4 :=
    padNat_length 4 y (by norm_num at *; omega)
  have hq : (padNat 2 mo).length = 2 :=
    padNat_length 2 mo (by norm_num at *; omega)
  have hr : (padNat 2 dy).length = 2 :=
    padNat_length 2 dy (by norm_num at *; omega)
  obtain ⟨a, b, c, d, hp4⟩ := list_len4 (padNat 4 y) hp
  obtain ⟨e, f, hq2⟩ := list_len2 (padNat 2 mo) hq
  obtain ⟨g, h, hr2⟩ := list_len2 (padNat 2 dy) hr
  refine ⟨a, b, c, d, e, f, g, h, ?_, hp4, hq2, hr2⟩
  unfold formatDate
  rw [hp4, hq2, hr2]
  rfl

theorem matchDate_formatDate (y mo dy : Nat) (hy : y < 10000)
    (hm : mo < 100) (hd : dy < 100) (rest : List Char) :
    matchDate (formatDate ⟨y, mo, dy⟩ ++ rest) =
      some (formatDate ⟨y, mo, dy⟩) ∧
    jsDateOf (formatDate ⟨y, mo, dy⟩) = ⟨y, mo, dy⟩ := by
  obtain ⟨a, b, c, d, e, f, g, h, hfd, hp4, hq2, hr2⟩ :=
    formatDate_explicit y mo dy hy hm hd
  have hda : a.isDigit = true :=
    (padNat_digits 4 y a (by rw [hp4]; simp)).1
  have hdb : b.isDigit = true :=
    (padNat_digits 4 y b (by rw [hp4]; simp)).1
  have hdc : c.isDigit = true :=
    (padNat_digits 4 y c (by rw [hp4]; simp)).1
  have hdd : d.isDigit = true :=
    (padNat_digits 4 y d (by rw [hp4]; simp)).1
  have hde : e.isDigit = true :=
    (padNat_digits 2 mo e (by rw [hq2]; simp)).1
  have hdf : f.isDigit = true :=
    (padNat_digits 2 mo f (by rw [hq2]; simp)).1
  have hdg : g.isDigit = true :=
    (padNat_digits 2 dy g (by rw [hr2]; simp)).1
  have hdh : h.isDigit = true :=
    (padNat_digits 2 dy h (by rw [hr2]; simp)).1
  constructor
  · rw [hfd]
    simp only [List.cons_append, List.nil_append, matchDate, hda, hdb, hdc,
      hdd, hde, hdf, hdg, hdh]
    simp
  · rw [hfd]
    unfold jsDateOf
    have ht4 : ([a, b, c, d, '-', e, f, '-', g, h].take 4) = [a, b, c, d] :=
      rfl
    have ht5 : (([a, b, c, d, '-', e, f, '-', g, h].drop 5).take 2) =
        [e, f] := rfl
    have ht8 : ([a, b, c, d, '-', e, f, '-', g, h].drop 8) = [g, h] := rfl
    rw [ht4, ht5, ht8, ← hp4, ← hq2, ← hr2,
      toNum_padNat 4 y, toNum_padNat 2 mo, toNum_padNat 2 dy]

theorem dropWhile_ws_dash (x : List Char) :
    (' ' :: '-' :: x).dropWhile jsWS = '-' :: x := by
  rw [List.dropWhile_cons]
  simp only [show jsWS ' ' = true from rfl, if_true]
  rw [List.dropWhile_cons]
  simp only [show jsWS '-' = false from rfl, Bool.false_eq_true, if_false]

/-- The version-header regex on a freshly formatted, dated header line:
the label and the date string are captured exactly. -/
theorem vhm_header (L : Line) (y mo dy : Nat)
    (hy : y < 10000) (hm : mo < 100) (hd : dy < 100)
    (hL : L ≠ []) (hRB : ∀ c ∈ L, c ≠ ']') :
    versionHeaderMatch (versionHeaderLine L (some ⟨y, mo, dy⟩)) =
      some (L, some (formatDate ⟨y, mo, dy⟩)) := by
  obtain ⟨a, b, c, d, e, f, g, h, hfd, hp4, hq2, hr2⟩ :=
    formatDate_explicit y mo dy hy hm hd
  have hws_a : jsWS a = false :=
    (padNat_digits 4 y a (by rw [hp4]; simp)).2.1
  have hline : versionHeaderLine L (some ⟨y, mo, dy⟩) =
      '#' :: '#' :: (' ' :: '[' ::
        (L ++ ']' :: ' ' :: '-' :: ' ' :: formatDate ⟨y, mo, dy⟩)) := by
    unfold versionHeaderLine
    simp
  have hLlen : ∃ n, L.length = n + 1 := by
    cases L with
    | nil => exact absurd rfl hL
    | cons x xs => exact ⟨xs.length, rfl⟩
  obtain ⟨n, hn⟩ := hLlen
  have htw : ((' ' :: '[' ::
      (L ++ ']' :: ' ' :: '-' :: ' ' :: formatDate ⟨y, mo, dy⟩)).takeWhile
        jsWS) = [' '] := by
    rw [List.takeWhile_cons]
    simp only [show jsWS ' ' = true from rfl, if_true]
    rw [List.takeWhile_cons]
    simp only [show jsWS '[' = false from rfl, Bool.false_eq_true, if_false]
  have hdwfd : (formatDate ⟨y, mo, dy⟩).dropWhile jsWS =
      formatDate ⟨y, mo, dy⟩ := by
    rw [hfd, List.dropWhile_cons]
    simp only [hws_a, Bool.false_eq_true, if_false]
  -- the separator and date groups succeed on the tail after the label
  have htryF : tryF (' ' :: '-' :: ' ' :: formatDate ⟨y, mo, dy⟩) =
      some (formatDate ⟨y, mo, dy⟩) := by
    show some ((formatDate ⟨y, mo, dy⟩).dropWhile jsWS) =
      some (formatDate ⟨y, mo, dy⟩)
    rw [hdwfd]
  have hdmax : ((L ++ ']' :: ' ' :: '-' :: ' ' ::
      formatDate ⟨y, mo, dy⟩).takeWhile (fun c => c != ']')) = L :=
    takeWhile_app L ']' _
      (fun x hx => by simp [hRB x hx]) (by decide)
  have hcap : ((L ++ ']' :: ' ' :: '-' :: ' ' ::
      formatDate ⟨y, mo, dy⟩).take (n + 1)) = L := by
    rw [← hn]
    exact List.take_left L _
  have hdrop : ((L ++ ']' :: ' ' :: '-' :: ' ' ::
      formatDate ⟨y, mo, dy⟩).drop (n + 1)) =
      ']' :: ' ' :: '-' :: ' ' :: formatDate ⟨y, mo, dy⟩ := by
    rw [← hn]
    exact List.drop_left L _
  have hmd := (matchDate_formatDate y mo dy hy hm hd []).1
  rw [List.append_nil] at hmd
  have htryD : tryD (L ++ ']' :: ' ' :: '-' :: ' ' ::
      formatDate ⟨y, mo, dy⟩) (n + 1) =
      some (L, some (formatDate ⟨y, mo, dy⟩)) := by
    rw [tryD, hcap, hdrop]
    show (match tryF (' ' :: '-' :: ' ' :: formatDate ⟨y, mo, dy⟩) with
      | some r5 => some (L, matchDate r5)
      | none => tryD (L ++ ']' :: ' ' :: '-' :: ' ' ::
          formatDate ⟨y, mo, dy⟩) n) = some (L, some (formatDate ⟨y, mo, dy⟩))
    rw [htryF]
    show some (L, matchDate (formatDate ⟨y, mo, dy⟩)) = _
    rw [hmd]
  have htryC : tryC ('[' :: (L ++ ']' :: ' ' :: '-' :: ' ' ::
      formatDate ⟨y, mo, dy⟩)) =
      some (L, some (formatDate ⟨y, mo, dy⟩)) := by
    show (tryD (L ++ ']' :: ' ' :: '-' :: ' ' :: formatDate ⟨y, mo, dy⟩)
        ((L ++ ']' :: ' ' :: '-' :: ' ' ::
          formatDate ⟨y, mo, dy⟩).takeWhile (fun c => c != ']')).length <|>
      tryD ('[' :: (L ++ ']' :: ' ' :: '-' :: ' ' ::
          formatDate ⟨y, mo, dy⟩))
        (('[' :: (L ++ ']' :: ' ' :: '-' :: ' ' ::
          formatDate ⟨y, mo, dy⟩)).takeWhile (fun c => c != ']')).length) =
      some (L, some (formatDate ⟨y, mo, dy⟩))
    rw [hdmax, hn, htryD]
    rfl
  rw [hline]
  show (if ('#' == '#' && '#' == '#') = true
      then tryB (' ' :: '[' ::
          (L ++ ']' :: ' ' :: '-' :: ' ' :: formatDate ⟨y, mo, dy⟩))
        ((' ' :: '[' ::
          (L ++ ']' :: ' ' :: '-' :: ' ' ::
            formatDate ⟨y, mo, dy⟩)).takeWhile jsWS).length
      else none) = some (L, some (formatDate ⟨y, mo, dy⟩))
  rw [if_pos (show ('#' == '#' && '#' == '#') = true from rfl), htw]
  show tryB _ (0 + 1) = _
  rw [tryB]
  have hdrop1 : ((' ' :: '[' :: (L ++ ']' :: ' ' :: '-' :: ' ' ::
      formatDate ⟨y, mo, dy⟩)).drop (0 + 1)) =
      '[' :: (L ++ ']' :: ' ' :: '-' :: ' ' :: formatDate ⟨y, mo, dy⟩) := rfl
  rw [hdrop1, htryC]
  rfl

theorem stepBlank (i : Nat) (s : PState) (hp : s.inPreamble = false) :
    parseStep i [] s = s := by
  obtain ⟨t, de, vs, cv, cc, ip, pl⟩ := s
  have hp' : ip = false := hp
  subst hp'
  rfl

theorem stepVersionHeader (i : Nat) (line : Line) (s : PState)
    (cap1 : Line) (cap2 : Option Line)
    (h1 : startsH1 line = false)
    (hm : versionHeaderMatch line = some (cap1, cap2)) :
    parseStep i line s =
      { s with
        versions := (match s.currentVersion with
          | some v => s.versions ++ [v]
          | none => s.versions),
        description := if s.inPreamble then trim (joinNL s.preambleLines)
                       else s.description,
        inPreamble := false,
        currentVersion := some ⟨trim cap1, cap2.map jsDateOf, []⟩,
        currentCategory := none } := by
  unfold parseStep
  rw [if_neg (fun hc => by rw [h1] at hc; exact absurd hc.1 (by simp)), hm]

theorem stepEntry (i : Nat) (s : PState) (v : ChangelogVersion)
    (c : ChangelogCategory) (dsc : Line)
    (hv : s.currentVersion = some v) (hc : s.currentCategory = some c)
    (hne : dsc ≠ []) (htr : trim dsc = dsc) (hdot : dsc.all dotOK = true) :
    parseStep i ('-' :: ' ' :: dsc) s =
      { s with currentVersion := some (addEntries v [⟨c, dsc, []⟩]) } := by
  obtain ⟨dh, dt, rfl⟩ : ∃ dh dt, dsc = dh :: dt := by
    cases dsc with
    | nil => exact absurd rfl hne
    | cons dh dt => exact ⟨dh, dt, rfl⟩
  obtain ⟨t, de, vs, cv, cc, ip, pl⟩ := s
  have hv' : cv = some v := hv
  have hc' : cc = some c := hc
  subst hv'
  subst hc'
  have hme : matchEntry ('-' :: ' ' :: dh :: dt) = some (dh :: dt) := by
    show tailCapture (' ' :: dh :: dt) = some (dh :: dt)
    have htk : (' ' :: dh :: dt).takeWhile jsWS = [' '] := by
      rw [List.takeWhile_cons]
      simp only [show jsWS ' ' = true from rfl, if_true]
      rw [takeWhile_nil_of_trim_eq (dh :: dt) htr]
    unfold tailCapture
    rw [htk]
    show capTry (' ' :: dh :: dt) (0 + 1) = some (dh :: dt)
    rw [capTry]
    show (if (!(dh :: dt).isEmpty && (dh :: dt).all dotOK) = true
      then some (dh :: dt) else capTry (' ' :: dh :: dt) 0) = some (dh :: dt)
    rw [hdot]
    rfl
  have hstep : parseStep i ('-' :: ' ' :: dh :: dt)
      ⟨t, de, vs, some v, some c, ip, pl⟩ =
      ⟨t, de, vs, some (addEntries v [⟨c, trim (dh :: dt), []⟩]),
        some c, ip, pl⟩ := by
    unfold parseStep
    rw [if_neg (fun hcond => Bool.false_ne_true hcond.1), hme]
    rfl
  rw [htr] at hstep
  exact hstep

theorem catLine_facts (c : ChangelogCategory) :
    matchCat ((("### ").data) ++ catName c) = some (catName c) ∧
    VALID_CATEGORIES.find?
      (fun c' => lowerL (catName c') == lowerL (trim (catName c))) =
        some c := by
  cases c <;> exact ⟨rfl, rfl⟩

theorem stepCatC (i : Nat) (s : PState) (c : ChangelogCategory)
    (hv : s.currentVersion.isSome = true) :
    parseStep i ((("### ").data) ++ catName c) s =
      { s with currentCategory := some c } :=
  stepCatMatched i ((("### ").data) ++ catName c) s (catName c) c
    (catLine_facts c).1 hv (catLine_facts c).2

theorem runP_append (xs ys : List Line) (i : Nat) (s : PState) :
    runP i (xs ++ ys) s = runP (i + xs.length) ys (runP i xs s) := by
  induction xs generalizing i s with
  | nil => simp [runP]
  | cons l xs' ih =>
    show runP (i + 1) (xs' ++ ys) (parseStep i l s) =
      runP (i + (xs'.length + 1)) ys (runP (i + 1) xs' (parseStep i l s))
    rw [ih (i + 1) (parseStep i l s)]
    have : i + 1 + xs'.length = i + (xs'.length + 1) := by omega
    rw [this]

theorem addEntries_nil (v : ChangelogVersion) : addEntries v [] = v := by
  simp [addEntries]

theorem addEntries_append (v : ChangelogVersion)
    (es1 es2 : List ChangelogEntry) :
    addEntries (addEntries v es1) es2 = addEntries v (es1 ++ es2) := by
  simp [addEntries]

theorem runP_entries (ds : List Line) (i : Nat) (s : PState)
    (v : ChangelogVersion) (c : ChangelogCategory)
    (hv : s.currentVersion = some v) (hc : s.currentCategory = some c)
    (hwf : ∀ d ∈ ds, d ≠ [] ∧ trim d = d ∧ d.all dotOK = true) :
    runP i (ds.map (fun d => '-' :: ' ' :: d)) s =
      { s with
        currentVersion := some (addEntries v (ds.map (fun d => ⟨c, d, []⟩))) }
      := by
  induction ds generalizing i s v with
  | nil =>
    show s = _
    have h0 : (([] : List Line).map (fun d => (⟨c, d, []⟩ : ChangelogEntry)))
        = [] := rfl
    rw [h0, addEntries_nil, ← hv]
  | cons d ds' ih =>
    have hd := hwf d (List.mem_cons_self d ds')
    have hstep := stepEntry i s v c d hv hc hd.1 hd.2.1 hd.2.2
    show runP (i + 1) (ds'.map (fun d => '-' :: ' ' :: d))
        (parseStep i ('-' :: ' ' :: d) s) = _
    rw [hstep]
    have hihs := ih (i + 1)
      { s with currentVersion := some (addEntries v [⟨c, d, []⟩]) }
      (addEntries v [⟨c, d, []⟩]) rfl hc
      (fun x hx => hwf x (List.mem_cons_of_mem d hx))
    rw [hihs, addEntries_append]
    rfl

theorem runP_cats (cs : List ChangelogCategory) (ch : AICategorizedChanges)
    (i : Nat) (s : PState) (v : ChangelogVersion)
    (hv : s.currentVersion = some v) (hp : s.inPreamble = false)
    (hwf : ∀ c ∈ cs, ∀ d ∈ ch.categories c,
      d ≠ [] ∧ trim d = d ∧ d.all dotOK = true) :
    ∃ cc, runP i (cs.flatMap (catLines ch)) s =
      { s with
        currentVersion := some (addEntries v (catEntries ch cs)),
        currentCategory := cc } := by
  induction cs generalizing i s v with
  | nil =>
    refine ⟨s.currentCategory, ?_⟩
    show s = _
    have h0 : catEntries ch [] = [] := rfl
    rw [h0, addEntries_nil, ← hv]
  | cons c cs' ih =>
    by_cases hemp : (ch.categories c).isEmpty = true
    · have hcl : catLines ch c = [] := by
        unfold catLines
        rw [if_pos hemp]
      have hce : ch.categories c = [] := by
        cases h : ch.categories c with
        | nil => rfl
        | cons x xs => rw [h] at hemp; simp [List.isEmpty] at hemp
      have hflat : (c :: cs').flatMap (catLines ch) =
          cs'.flatMap (catLines ch) := by
        rw [List.flatMap_cons, hcl, List.nil_append]
      have hents : catEntries ch (c :: cs') = catEntries ch cs' := by
        unfold catEntries
        rw [List.flatMap_cons, hce, List.map_nil, List.nil_append]
      rw [hflat, hents]
      exact ih i s v hv hp (fun x hx => hwf x (List.mem_cons_of_mem c hx))
    · have hcl : catLines ch c =
          ((("### ").data ++ catName c) :: ([] : Line) ::
            (ch.categories c).map (fun d => '-' :: ' ' :: d)) ++ [[]] := by
        unfold catLines
        rw [if_neg hemp]
      have hflat : (c :: cs').flatMap (catLines ch) =
          ((("### ").data) ++ catName c) :: ([] : Line) ::
            ((ch.categories c).map (fun d => '-' :: ' ' :: d) ++
              ([] : Line) :: cs'.flatMap (catLines ch)) := by
        rw [List.flatMap_cons, hcl]
        simp
      obtain ⟨t, de, vs, cv, cc0, ip, pl⟩ := s
      have hv' : cv = some v := hv
      have hp' : ip = false := hp
      subst hv'
      subst hp'
      rw [hflat]
      have h1 : parseStep i ((("### ").data) ++ catName c)
          (⟨t, de, vs, some v, cc0, false, pl⟩ : PState) =
          (⟨t, de, vs, some v, some c, false, pl⟩ : PState) :=
        stepCatC i ⟨t, de, vs, some v, cc0, false, pl⟩ c rfl
      have h2 : parseStep (i + 1) ([] : Line)
          (⟨t, de, vs, some v, some c, false, pl⟩ : PState) =
          (⟨t, de, vs, some v, some c, false, pl⟩ : PState) :=
        stepBlank (i + 1) ⟨t, de, vs, some v, some c, false, pl⟩ rfl
      have h3 : runP (i + 1 + 1)
          ((ch.categories c).map (fun d => '-' :: ' ' :: d))
          (⟨t, de, vs, some v, some c, false, pl⟩ : PState) =
          (⟨t, de, vs,
            some (addEntries v
              ((ch.categories c).map (fun d => ⟨c, d, []⟩))),
            some c, false, pl⟩ : PState) :=
        runP_entries (ch.categories c) (i + 1 + 1)
          ⟨t, de, vs, some v, some c, false, pl⟩ v c rfl rfl
          (hwf c (List.mem_cons_self c cs'))
      have h4 : parseStep
          (i + 1 + 1 +
            ((ch.categories c).map (fun d => '-' :: ' ' :: d)).length)
          ([] : Line)
          (⟨t, de, vs,
            some (addEntries v
              ((ch.categories c).map (fun d => ⟨c, d, []⟩))),
            some c, false, pl⟩ : PState) =
          (⟨t, de, vs,
            some (addEntries v
              ((ch.categories c).map (fun d => ⟨c, d, []⟩))),
            some c, false, pl⟩ : PState) :=
        stepBlank _ _ rfl
      obtain ⟨cc, hcc⟩ := ih
        (i + 1 + 1 +
          ((ch.categories c).map (fun d => '-' :: ' ' :: d)).length + 1)
        ⟨t, de, vs,
          some (addEntries v
            ((ch.categories c).map (fun d => ⟨c, d, []⟩))),
          some c, false, pl⟩
        (addEntries v ((ch.categories c).map (fun d => ⟨c, d, []⟩)))
        rfl rfl (fun x hx => hwf x (List.mem_cons_of_mem c hx))
      refine ⟨cc, ?_⟩
      show runP (i + 1)
          (([] : Line) :: ((ch.categories c).map (fun d => '-' :: ' ' :: d) ++
            ([] : Line) :: cs'.flatMap (catLines ch)))
          (parseStep i ((("### ").data) ++ catName c)
            ⟨t, de, vs, some v, cc0, false, pl⟩) = _
      rw [h1]
      show runP (i + 1 + 1)
          ((ch.categories c).map (fun d => '-' :: ' ' :: d) ++
            ([] : Line) :: cs'.flatMap (catLines ch))
          (parseStep (i + 1) []
            (⟨t, de, vs, some v, some c, false, pl⟩ : PState)) = _
      rw [h2, runP_append, h3]
      show runP
          (i + 1 + 1 +
            ((ch.categories c).map (fun d => '-' :: ' ' :: d)).length + 1)
          (cs'.flatMap (catLines ch))
          (parseStep
            (i + 1 + 1 +
              ((ch.categories c).map (fun d => '-' :: ' ' :: d)).length)
            []
            (⟨t, de, vs,
              some (addEntries v
                ((ch.categories c).map (fun d => ⟨c, d, []⟩))),
              some c, false, pl⟩ : PState)) = _
      rw [h4, hcc, addEntries_append]
      have hce2 : catEntries ch (c :: cs') =
          (ch.categories c).map (fun d => (⟨c, d, []⟩ : ChangelogEntry)) ++
            catEntries ch cs' := by
        unfold catEntries
        rw [List.flatMap_cons]
      rw [hce2]

theorem catName_no_nl (c : ChangelogCategory) : '\n' ∉ catName c := by
  cases c <;> decide

theorem dot_no_nl (d : Line) (h : d.all dotOK = true) : '\n' ∉ d := by
  intro hmem
  have := List.all_eq_true.mp h '\n' hmem
  exact absurd this (by decide)

theorem formatEntry_nil (c : ChangelogCategory) (d : Line)
    (u : Option Line) : formatEntry ⟨c, d, []⟩ u = '-' :: ' ' :: d := by
  cases u <;> rfl

theorem flatMap_congr_of {α β : Type} (f g : α → List β) :
    ∀ (l : List α), (∀ a ∈ l, f a = g a) → l.flatMap f = l.flatMap g := by
  intro l
  induction l with
  | nil => intro h; rfl
  | cons x xs ih =>
    intro h
    rw [List.flatMap_cons, List.flatMap_cons,
      h x (List.mem_cons_self x xs),
      ih (fun a ha => h a (List.mem_cons_of_mem x ha))]

theorem flatMap_nil_forall {α β : Type} (f : α → List β) :
    ∀ (l : List α), l.flatMap f = [] → ∀ a ∈ l, f a = [] := by
  intro l
  induction l with
  | nil =>
    intro _ a ha
    cases ha
  | cons x xs ih =>
    intro h a ha
    rw [List.flatMap_cons] at h
    have h2 := List.append_eq_nil.mp h
    rcases List.mem_cons.mp ha with rfl | ha'
    · exact h2.1
    · exact ih h2.2 a ha'

theorem entriesMap_split (c : ChangelogCategory) (es : List Line)
    (hwf : ∀ d ∈ es, d ≠ [] ∧ trim d = d ∧ d.all dotOK = true) :
    (es.map (fun d => formatEntry ⟨c, d, []⟩ none)).flatMap splitNL =
      es.map (fun d => '-' :: ' ' :: d) := by
  induction es with
  | nil => rfl
  | cons d es' ih =>
    have hd := hwf d (List.mem_cons_self d es')
    have hnl : '\n' ∉ '-' :: ' ' :: d := by
      intro hmem
      rcases List.mem_cons.mp hmem with h | h
      · exact absurd h (by decide)
      · rcases List.mem_cons.mp h with h2 | h2
        · exact absurd h2 (by decide)
        · exact absurd h2 (dot_no_nl d hd.2.2)
    rw [List.map_cons, List.map_cons, List.flatMap_cons,
      formatEntry_nil c d none, splitNL_no_nl _ hnl,
      ih (fun x hx => hwf x (List.mem_cons_of_mem d hx))]
    rfl

theorem catSection_split (ch : AICategorizedChanges) (c : ChangelogCategory)
    (hwf : ∀ d ∈ ch.categories c, d ≠ [] ∧ trim d = d ∧ d.all dotOK = true) :
    (catSection ch none c).flatMap splitNL = catLines ch c := by
  by_cases hemp : (ch.categories c).isEmpty = true
  · unfold catSection catLines
    rw [if_pos hemp, if_pos hemp]
    rfl
  · unfold catSection catLines
    rw [if_neg hemp, if_neg hemp]
    have hhdrnl : '\n' ∉ ("### ").data ++ catName c := by
      intro hmem
      rcases List.mem_append.mp hmem with h | h
      · exact absurd h (by decide)
      · exact absurd h (catName_no_nl c)
    have hhdr : splitNL ((("### ").data ++ catName c) ++ ['\n']) =
        [("### ").data ++ catName c, []] := by
      have : (("### ").data ++ catName c) ++ ['\n'] =
          (("### ").data ++ catName c) ++ '\n' :: [] := rfl
      rw [this, splitNL_append, splitNL_no_nl _ hhdrnl]
      rfl
    rw [List.flatMap_append, List.flatMap_cons, hhdr,
      entriesMap_split c (ch.categories c) hwf]
    rfl

theorem aiSections_split (ch : AICategorizedChanges)
    (hds : ∀ c, ∀ d ∈ ch.categories c,
      d ≠ [] ∧ trim d = d ∧ d.all dotOK = true) :
    (aiSections ch none).flatMap splitNL =
      CATEGORY_ORDER.flatMap (catLines ch) := by
  unfold aiSections
  rw [List.flatMap_assoc]
  exact flatMap_congr_of _ _ CATEGORY_ORDER
    (fun c _ => catSection_split ch c (hds c))

theorem header_no_nl (L : Line) (y mo dy : Nat) (hLn : '\n' ∉ L) :
    '\n' ∉ versionHeaderLine L (some ⟨y, mo, dy⟩) := by
  intro hmem
  unfold versionHeaderLine at hmem
  rcases List.mem_append.mp hmem with h | h
  · rcases List.mem_append.mp h with h2 | h2
    · exact absurd h2 (by decide)
    · exact absurd h2 hLn
  · rcases List.mem_cons.mp h with h2 | h2
    · exact absurd h2 (by decide)
    · rcases List.mem_append.mp h2 with h3 | h3
      · exact absurd h3 (by decide)
      · unfold formatDate at h3
        rcases List.mem_append.mp h3 with h4 | h4
        · rcases List.mem_append.mp h4 with h5 | h5
          · exact absurd rfl ((padNat_digits 4 y '\n' h5).2.2)
          · rcases List.mem_cons.mp h5 with h6 | h6
            · exact absurd h6 (by decide)
            · exact absurd rfl ((padNat_digits 2 mo '\n' h6).2.2)
        · rcases List.mem_cons.mp h4 with h5 | h5
          · exact absurd h5 (by decide)
          · exact absurd rfl ((padNat_digits 2 dy '\n' h5).2.2)

theorem aiSections_nil_cats (ch : AICategorizedChanges)
    (hsec : aiSections ch none = []) :
    ∀ c ∈ CATEGORY_ORDER, ch.categories c = [] := by
  intro c hc
  have h1 := flatMap_nil_forall (catSection ch none) CATEGORY_ORDER hsec c hc
  by_cases hemp : (ch.categories c).isEmpty = true
  · cases h : ch.categories c with
    | nil => rfl
    | cons x xs => rw [h] at hemp; simp [List.isEmpty] at hemp
  · unfold catSection at h1
    rw [if_neg hemp] at h1
    simp at h1

theorem catEntries_nil_of (ch : AICategorizedChanges) :
    ∀ (cs : List ChangelogCategory), (∀ c ∈ cs, ch.categories c = []) →
      catEntries ch cs = [] := by
  intro cs
  induction cs with
  | nil => intro _; rfl
  | cons c cs' ih =>
    intro h
    have hstep : catEntries ch (c :: cs') =
        (ch.categories c).map (fun d => (⟨c, d, []⟩ : ChangelogEntry)) ++
          catEntries ch cs' := by
      unfold catEntries
      rw [List.flatMap_cons]
    rw [hstep, h c (List.mem_cons_self c cs'),
      ih (fun x hx => h x (List.mem_cons_of_mem c hx))]
    rfl

theorem formatVersion_sections_nil (L : Line) (date : Option JSDate)
    (ch : AICategorizedChanges) (hsec : aiSections ch none = []) :
    formatVersion L date ch none = joinNL [versionHeaderLine L date, []] := by
  have h1 : formatAIEntries ch none = [] := by
    unfold formatAIEntries
    rw [hsec]
    rfl
  show joinNL (if trim (formatAIEntries ch none) ≠ [] then
      [versionHeaderLine L date, [], formatAIEntries ch none]
    else [versionHeaderLine L date, []]) = _
  rw [h1, if_neg (fun hcon => hcon rfl)]

theorem formatVersion_sections_ne (L : Line) (date : Option JSDate)
    (ch : AICategorizedChanges)
    (hne : trim (formatAIEntries ch none) ≠ []) :
    formatVersion L date ch none =
      joinNL [versionHeaderLine L date, [], formatAIEntries ch none] := by
  show joinNL (if trim (formatAIEntries ch none) ≠ [] then
      [versionHeaderLine L date, [], formatAIEntries ch none]
    else [versionHeaderLine L date, []]) = _
  rw [if_pos hne]

theorem aiSections_shape (ch : AICategorizedChanges) :
    aiSections ch none = [] ∨ ∃ c xs, aiSections ch none =
      (("### ").data ++ catName c ++ ['\n']) :: xs := by
  unfold aiSections
  have key : ∀ (cs : List ChangelogCategory),
      cs.flatMap (catSection ch none) = [] ∨
      ∃ c xs, cs.flatMap (catSection ch none) =
        (("### ").data ++ catName c ++ ['\n']) :: xs := by
    intro cs
    induction cs with
    | nil => exact Or.inl rfl
    | cons c cs' ih =>
      by_cases hemp : (ch.categories c).isEmpty = true
      · have hcl : catSection ch none c = [] := by
          unfold catSection
          rw [if_pos hemp]
        rw [List.flatMap_cons, hcl, List.nil_append]
        exact ih
      · right
        have hcl : catSection ch none c =
            (("### ").data ++ catName c ++ ['\n']) ::
              ((ch.categories c).map
                (fun d => formatEntry ⟨c, d, []⟩ none) ++ [[]]) := by
          unfold catSection
          rw [if_neg hemp]
          rfl
        rw [List.flatMap_cons, hcl]
        refine ⟨c, ((ch.categories c).map
          (fun d => formatEntry ⟨c, d, []⟩ none) ++ [[]]) ++
            cs'.flatMap (catSection ch none), ?_⟩
        simp
  exact key CATEGORY_ORDER

theorem trim_formatAI_ne (ch : AICategorizedChanges)
    (hsec : aiSections ch none ≠ []) :
    trim (formatAIEntries ch none) ≠ [] := by
  rcases aiSections_shape ch with h | ⟨c, xs, h⟩
  · exact absurd h hsec
  · have hmem : '#' ∈ formatAIEntries ch none := by
      unfold formatAIEntries
      rw [h]
      cases xs with
      | nil =>
        show '#' ∈ ("### ").data ++ catName c ++ ['\n']
        exact List.mem_append_left _ (List.mem_append_left _ (by decide))
      | cons x2 xs2 =>
        show '#' ∈ (("### ").data ++ catName c ++ ['\n']) ++
          '\n' :: joinNL (x2 :: xs2)
        exact List.mem_append_left _
          (List.mem_append_left _ (List.mem_append_left _ (by decide)))
    exact trim_ne_nil _ '#' hmem (by decide)

/-- C2 (amended): for a non-empty label with no `]` or newline and no
surrounding whitespace, a present date within `toISOString` range, and
descriptions that are non-empty, trimmed and free of line terminators,
parsing the text produced by `formatVersion` yields exactly one version
section whose label, date and entries — one entry per description,
grouped in the fixed category order, empty categories vanishing — equal
the input. -/
theorem format_parse_roundtrip (L : Line) (y mo dy : Nat)
    (ch : AICategorizedChanges)
    (hy : y < 10000) (hm : mo < 100) (hd : dy < 100)
    (hL : L ≠ []) (hLt : trim L = L)
    (hLc : ∀ c ∈ L, c ≠ ']' ∧ c ≠ '\n')
    (hds : ∀ c, ∀ d ∈ ch.categories c,
      d ≠ [] ∧ trim d = d ∧ d.all dotOK = true) :
    parseChangelog (formatVersion L (some ⟨y, mo, dy⟩) ch none) =
      ⟨("Changelog").data, [],
       [⟨L, some ⟨y, mo, dy⟩, catEntries ch CATEGORY_ORDER⟩]⟩ := by
  have hfd := matchDate_formatDate y mo dy hy hm hd []
  have hvm : versionHeaderMatch (versionHeaderLine L (some ⟨y, mo, dy⟩)) =
      some (L, some (formatDate ⟨y, mo, dy⟩)) :=
    vhm_header L y mo dy hy hm hd hL (fun c hc => (hLc c hc).1)
  have hline : versionHeaderLine L (some ⟨y, mo, dy⟩) =
      '#' :: '#' :: (' ' :: '[' ::
        (L ++ ']' :: ' ' :: '-' :: ' ' :: formatDate ⟨y, mo, dy⟩)) := by
    unfold versionHeaderLine
    simp
  have hH1 : startsH1 (versionHeaderLine L (some ⟨y, mo, dy⟩)) = false := by
    rw [hline]
    rfl
  have hnlh : '\n' ∉ versionHeaderLine L (some ⟨y, mo, dy⟩) :=
    header_no_nl L y mo dy (fun hmem => (hLc '\n' hmem).2 rfl)
  have hs1 : parseStep 0 (versionHeaderLine L (some ⟨y, mo, dy⟩))
      initPState =
      (⟨("Changelog").data, [], [], some ⟨L, some ⟨y, mo, dy⟩, []⟩,
        none, false, []⟩ : PState) := by
    rw [stepVersionHeader 0 _ initPState L (some (formatDate ⟨y, mo, dy⟩))
      hH1 hvm]
    show (⟨("Changelog").data, trim (joinNL []), [],
      some ⟨trim L, some (jsDateOf (formatDate ⟨y, mo, dy⟩)), []⟩,
      none, false, []⟩ : PState) = _
    rw [hLt, hfd.2]
    rfl
  by_cases hsec : aiSections ch none = []
  · have hcs := aiSections_nil_cats ch hsec
    have hfv := formatVersion_sections_nil L (some ⟨y, mo, dy⟩) ch hsec
    have hsplit : splitNL (formatVersion L (some ⟨y, mo, dy⟩) ch none) =
        [versionHeaderLine L (some ⟨y, mo, dy⟩), []] := by
      rw [hfv]
      refine splitNL_joinNL_of _ (by simp) ?_
      intro l hl
      rcases List.mem_cons.mp hl with rfl | hl2
      · exact hnlh
      · rcases List.mem_cons.mp hl2 with rfl | hl3
        · simp
        · cases hl3
    have hrun : runP 0
        (splitNL (formatVersion L (some ⟨y, mo, dy⟩) ch none)) initPState =
        (⟨("Changelog").data, [], [], some ⟨L, some ⟨y, mo, dy⟩, []⟩,
          none, false, []⟩ : PState) := by
      rw [hsplit]
      show runP 1 [[]]
        (parseStep 0 (versionHeaderLine L (some ⟨y, mo, dy⟩)) initPState) = _
      rw [hs1]
      show parseStep 1 []
        (⟨("Changelog").data, [], [], some ⟨L, some ⟨y, mo, dy⟩, []⟩,
          none, false, []⟩ : PState) = _
      exact stepBlank 1 _ rfl
    unfold parseChangelog
    rw [hrun, catEntries_nil_of ch CATEGORY_ORDER hcs]
    rfl
  · have htne := trim_formatAI_ne ch hsec
    have hfv := formatVersion_sections_ne L (some ⟨y, mo, dy⟩) ch htne
    have hecsplit : splitNL (formatAIEntries ch none) =
        CATEGORY_ORDER.flatMap (catLines ch) := by
      have h1 : splitNL (joinNL (aiSections ch none)) =
          (aiSections ch none).flatMap splitNL :=
        splitNL_joinNL (aiSections ch none) hsec
      unfold formatAIEntries
      rw [h1, aiSections_split ch hds]
    have hsplit : splitNL (formatVersion L (some ⟨y, mo, dy⟩) ch none) =
        versionHeaderLine L (some ⟨y, mo, dy⟩) :: ([] : Line) ::
          CATEGORY_ORDER.flatMap (catLines ch) := by
      rw [hfv]
      have hj3 : joinNL [versionHeaderLine L (some ⟨y, mo, dy⟩), [],
          formatAIEntries ch none] =
          versionHeaderLine L (some ⟨y, mo, dy⟩) ++
            '\n' :: ('\n' :: formatAIEntries ch none) := rfl
      rw [hj3, splitNL_append _ _ , splitNL_no_nl _ hnlh]
      have hsplit2 : splitNL ('\n' :: formatAIEntries ch none) =
          ([] : Line) :: splitNL (formatAIEntries ch none) := rfl
      rw [hsplit2, hecsplit]
      rfl
    obtain ⟨cc, hcc⟩ := runP_cats CATEGORY_ORDER ch 2
      (⟨("Changelog").data, [], [], some ⟨L, some ⟨y, mo, dy⟩, []⟩,
        none, false, []⟩ : PState)
      ⟨L, some ⟨y, mo, dy⟩, []⟩ rfl rfl (fun c _ => hds c)
    have hrun : runP 0
        (splitNL (formatVersion L (some ⟨y, mo, dy⟩) ch none)) initPState =
        { (⟨("Changelog").data, [], [], some ⟨L, some ⟨y, mo, dy⟩, []⟩,
            none, false, []⟩ : PState) with
          currentVersion := some (addEntries ⟨L, some ⟨y, mo, dy⟩, []⟩
            (catEntries ch CATEGORY_ORDER)),
          currentCategory := cc } := by
      rw [hsplit]
      show runP 1 (([] : Line) :: CATEGORY_ORDER.flatMap (catLines ch))
        (parseStep 0 (versionHeaderLine L (some ⟨y, mo, dy⟩)) initPState) = _
      rw [hs1]
      show runP 2 (CATEGORY_ORDER.flatMap (catLines ch))
        (parseStep 1 []
          (⟨("Changelog").data, [], [], some ⟨L, some ⟨y, mo, dy⟩, []⟩,
            none, false, []⟩ : PState)) = _
      rw [stepBlank 1 _ rfl]
      exact hcc
    unfold parseChangelog
    rw [hrun]
    show (⟨("Changelog").data, [],
      [] ++ [addEntries ⟨L, some ⟨y, mo, dy⟩, []⟩
        (catEntries ch CATEGORY_ORDER)]⟩ : ParsedChangelog) = _
    rfl

/-- C2 counterexample: the claim quantifies over an optional date, but
with no date `formatVersion` emits `## [1.0.0]`, which the parser does
not recognize as a version header (the separator group of the regex is
mandatory), so parsing the formatted text yields no version section at
all instead of exactly one. -/
theorem format_parse_roundtrip_cex :
    parseChangelog (formatVersion (("1.0.0").data) none
        ⟨fun c => match c with
          | ChangelogCategory.added => [("x").data]
          | _ => []⟩ none) =
      ⟨("Changelog").data, [], []⟩ := by
  decide

/-- Witness for C2 at a concrete label, date and two non-empty
categories. -/
theorem format_parse_roundtrip_w :
    parseChangelog (formatVersion (("1.2.0").data) (some ⟨2024, 5, 17⟩)
        (⟨fun c => match c with
          | ChangelogCategory.added => [("added one").data, ("added two").data]
          | ChangelogCategory.fixed => [("fix one").data]
          | _ => []⟩) none) =
      ⟨("Changelog").data, [],
       [⟨("1.2.0").data, some ⟨2024, 5, 17⟩,
         catEntries
           (⟨fun c => match c with
             | ChangelogCategory.added =>
                 [("added one").data, ("added two").data]
             | ChangelogCategory.fixed => [("fix one").data]
             | _ => []⟩) CATEGORY_ORDER⟩]⟩ :=
  format_parse_roundtrip (("1.2.0").data) 2024 5 17
    (⟨fun c => match c with
      | ChangelogCategory.added => [("added one").data, ("added two").data]
      | ChangelogCategory.fixed => [("fix one").data]
      | _ => []⟩)
    (by decide) (by decide) (by decide) (by decide) (by decide) (by decide)
    (by intro c; cases c <;> decide)

/-! ### C3: the version-header regex demands a separator -/

/-- C3 (code bug): the separator group `(?:\s*-\s*|\s+)` of
`VERSION_HEADER_REGEX` is not optional, so a heading `## [label]` with
nothing after the bracket is not recognized as a version header at all —
contrary to the contract that the dash and date are optional.  In
particular the parser does not even recognize its own formatter's
`## [Unreleased]` header, and a document whose only line is `## [1.0.0]`
parses to a document with no versions. -/
theorem version_header_no_date_bug :
    versionHeaderMatch (("## [1.0.0]").data) = none ∧
    versionHeaderMatch (("## [Unreleased]").data) = none ∧
    parseChangelog (("## [1.0.0]").data) = ⟨("Changelog").data, [], []⟩ :=
  ⟨by decide, by decide, by decide⟩

end ChangelogGen
